import Mathlib

/-!
# Verification of the JSON Schema inference engine of `generate-schema.js`

This file is a shallow embedding of the two functions that make up the
schema-inference core of the repository:

* `inferSchema`  (source: `src/generate-schema.js`, `inferSchema`)
* `unifySchemas` (source: `src/generate-schema.js`, `unifySchemas`)

JavaScript objects and arrays are reference values that may share structure
and form cycles, so JSON values are embedded as a `Heap` (lists of array
bodies and object bodies, addressed by `Nat` references) together with a
`JVal` that names a primitive or a reference.  Recursion in the source is
unbounded, so the embedding takes an explicit fuel argument; `none` at every
fuel means the source call never returns.

Schema fragments are plain JavaScript objects that only ever carry the keys
`type`, `format`, `items`, `properties`, `required` and `anyOf`; the
embedding `Schema` is a record of those six optional fields.
-/

set_option maxHeartbeats 1000000

namespace DynaLoader

/-- A JSON-Schema fragment as built by `generate-schema.js`: a JavaScript
object with the optional keys `type`, `format`, `items`, `properties`,
`required` and `anyOf`.  `properties` keeps its JavaScript key insertion
order as an association list. -/
inductive Schema : Type where
  | mk (type : Option String) (format : Option String) (items : Option Schema)
       (properties : Option (List (String × Schema)))
       (required : Option (List String))
       (anyOf : Option (List Schema)) : Schema

namespace Schema

def type : Schema → Option String
  | .mk t _ _ _ _ _ => t

def format : Schema → Option String
  | .mk _ f _ _ _ _ => f

def items : Schema → Option Schema
  | .mk _ _ it _ _ _ => it

def properties : Schema → Option (List (String × Schema))
  | .mk _ _ _ pr _ _ => pr

def required : Schema → Option (List String)
  | .mk _ _ _ _ rq _ => rq

def anyOf : Schema → Option (List Schema)
  | .mk _ _ _ _ _ ao => ao

end Schema

/-- The unconstrained fragment `{}`. -/
def emptySchema : Schema := .mk none none none none none none

/-- `{type: "null"}` -/
def nullSchema : Schema := .mk (some "null") none none none none none

/-- `{type: "boolean"}` -/
def boolSchema : Schema := .mk (some "boolean") none none none none none

/-- `{type: "integer"}` -/
def intSchema : Schema := .mk (some "integer") none none none none none

/-- `{type: "number"}` -/
def numberSchema : Schema := .mk (some "number") none none none none none

/-- `{type: "string"}` with an optional `format`. -/
def stringSchema (fmt : Option String) : Schema :=
  .mk (some "string") fmt none none none none

/-- The degraded fragment `{type: "object"}` produced by the cycle guard. -/
def degradedObjSchema : Schema := .mk (some "object") none none none none none

/-- `{type: "array", items: it}` -/
def arraySchema (it : Schema) : Schema :=
  .mk (some "array") none (some it) none none none

/-- `{type: "object", properties: ps, required: rs}` -/
def objectSchema (ps : List (String × Schema)) (rs : List String) : Schema :=
  .mk (some "object") none none (some ps) (some rs) none

/-- `{anyOf: l}` -/
def anyOfSchema (l : List Schema) : Schema :=
  .mk none none none none none (some l)

/-- `const baseSchema = { ...schemas[0] }; delete baseSchema.type;`
— a shallow copy of the fragment with its `type` key removed. -/
def deleteType : Schema → Schema
  | .mk _ f it pr rq ao => .mk none f it pr rq ao

/-! ## List helpers mirroring the JavaScript container operations -/

/-- First-seen deduplication with an explicit `seen` accumulator: the order
`[...new Set(l)]` produces in JavaScript (Set iteration is insertion order). -/
def dedupKeepFirst [DecidableEq α] (seen : List α) : List α → List α
  | [] => []
  | x :: xs =>
      if x ∈ seen then dedupKeepFirst seen xs
      else x :: dedupKeepFirst (x :: seen) xs

/-- `set.add(x)` on a JavaScript `Set` represented as its insertion-ordered
element list. -/
def setAdd [DecidableEq α] (acc : List α) (x : α) : List α :=
  if x ∈ acc then acc else acc ++ [x]

/-- Adding every element of `l` to the set `acc` in order. -/
def setAddAll [DecidableEq α] (acc : List α) (l : List α) : List α :=
  l.foldl setAdd acc

/-- One key assignment of `Object.assign(target, src)`: an existing key is
overwritten in place, a new key is appended (JavaScript insertion order for
string keys). -/
def assignOne (ps : List (String × Schema)) (k : String) (v : Schema) :
    List (String × Schema) :=
  if k ∈ ps.map Prod.fst then
    ps.map (fun kv => if kv.1 = k then (k, v) else kv)
  else ps ++ [(k, v)]

/-- `Object.assign(target, src)` over association lists. -/
def assignAll (ps : List (String × Schema)) (src : List (String × Schema)) :
    List (String × Schema) :=
  src.foldl (fun acc kv => assignOne acc kv.1 kv.2) ps

/-- The merge loop of `unifySchemas` for the all-`"object"` case:
`Object.assign(mergedProperties, s.properties)` and `s.required.forEach(req =>
allRequired.add(req))` for each fragment in sequence (a missing key is
skipped). -/
def mergeObjectSchemas (schemas : List Schema) : Schema :=
  let pr := schemas.foldl (fun acc s => assignAll acc (s.properties.getD [])) []
  let rq := schemas.foldl (fun acc s => setAddAll acc (s.required.getD [])) []
  .mk (some "object") none none (some pr) (some rq) none

/-- Embedding of `unifySchemas(schemas)`:
empty input returns `{}`; otherwise the distinct `type` tags are collected
with a `Set`; a single shared tag leads to the object merge when the tag is
`"object"` and otherwise to the first fragment with its `type` key deleted;
several distinct tags lead to `{anyOf: schemas}`. -/
def unifySchemas (schemas : List Schema) : Schema :=
  match schemas with
  | [] => emptySchema
  | s0 :: _ =>
      let types := dedupKeepFirst [] (schemas.map Schema.type)
      if types.length = 1 then
        if types.headD none = some "object" then mergeObjectSchemas schemas
        else deleteType s0
      else anyOfSchema schemas

/-! ## String format detection

The string branch of `inferSchema` calls two host facilities: the WHATWG
`URL` constructor and `Date.parse`.  Those are modelled below by executable
predicates; everything else in the branch (the `includes` checks, the two
regular expressions, the precedence of the four detectors) is translated
directly from the source. -/

/-- One scheme character of a WHATWG URL: ASCII alphanumeric, `+`, `-`, `.`. -/
def isSchemeChar (c : Char) : Bool :=
  c.isAlpha || c.isDigit || c = '+' || c = '-' || c = '.'

/-- Scanner for the remainder of a URL scheme: succeeds when a `:` is reached
through scheme characters. -/
def schemeTail : List Char → Bool
  | [] => false
  | c :: rest => if c = ':' then true else isSchemeChar c && schemeTail rest

/-- Models the host call `new URL(value)` succeeding (`value` parses as an
absolute URL): the string starts with a valid scheme, i.e. an ASCII letter
followed by scheme characters up to a `:`.  The host performs further
scheme-specific validation that no claim exercises; this model keeps the part
that separates URLs from the email/date/plain strings of the spec. -/
def urlParseOk (s : String) : Bool :=
  match s.data with
  | [] => false
  | c :: rest => c.isAlpha && schemeTail rest

/-- `value.includes(c)` for a single-character needle. -/
def strContains (s : String) (c : Char) : Bool :=
  s.data.contains c

/-- The regular expression test `value.match(/^\d{4}-\d{2}-\d{2}$/)`. -/
def matchDateShape (s : String) : Bool :=
  match s.data with
  | [y1, y2, y3, y4, '-', m1, m2, '-', d1, d2] =>
      y1.isDigit && y2.isDigit && y3.isDigit && y4.isDigit &&
      m1.isDigit && m2.isDigit && d1.isDigit && d2.isDigit
  | _ => false

/-- The regular expression test
`value.match(/^\d{4}-\d{2}-\d{2}T\d{2}:\d{2}:\d{2}/)` (a prefix match). -/
def matchDateTimeShape (s : String) : Bool :=
  match s.data with
  | y1 :: y2 :: y3 :: y4 :: '-' :: m1 :: m2 :: '-' :: d1 :: d2 :: 'T' ::
      h1 :: h2 :: ':' :: n1 :: n2 :: ':' :: s1 :: s2 :: _ =>
      y1.isDigit && y2.isDigit && y3.isDigit && y4.isDigit &&
      m1.isDigit && m2.isDigit && d1.isDigit && d2.isDigit &&
      h1.isDigit && h2.isDigit && n1.isDigit && n2.isDigit &&
      s1.isDigit && s2.isDigit
  | _ => false

/-- Numeric value of a decimal digit character. -/
def digitVal (c : Char) : Nat := c.toNat - '0'.toNat

/-- Gregorian leap year. -/
def isLeapYear (y : Nat) : Bool :=
  (y % 4 = 0 && y % 100 ≠ 0) || y % 400 = 0

/-- Days in a month (1–12) of a year. -/
def daysInMonth (y m : Nat) : Nat :=
  if m = 1 || m = 3 || m = 5 || m = 7 || m = 8 || m = 10 || m = 12 then 31
  else if m = 4 || m = 6 || m = 9 || m = 11 then 30
  else if isLeapYear y then 29 else 28

/-- A calendar-valid year/month/day triple, as the ECMAScript date-time
string format requires (out-of-range components make `Date.parse` return
`NaN`, no rollover). -/
def validYMD (y m d : Nat) : Bool :=
  1 ≤ m && m ≤ 12 && 1 ≤ d && d ≤ daysInMonth y m

/-- Models `!isNaN(Date.parse(value))` for a string that already matched the
`YYYY-MM-DD` shape: the components must form a valid calendar date. -/
def dateParseOk (s : String) : Bool :=
  match s.data with
  | [y1, y2, y3, y4, '-', m1, m2, '-', d1, d2] =>
      validYMD (digitVal y1 * 1000 + digitVal y2 * 100 + digitVal y3 * 10 + digitVal y4)
        (digitVal m1 * 10 + digitVal m2) (digitVal d1 * 10 + digitVal d2)
  | _ => false

/-- A two-digit field bounded by `hi`. -/
def twoDigitsLE (c1 c2 : Char) (hi : Nat) : Bool :=
  c1.isDigit && c2.isDigit && digitVal c1 * 10 + digitVal c2 ≤ hi

/-- Time-zone offset tail `HH:MM` of a `±HH:MM` designator. -/
def offsetTail : List Char → Bool
  | [h1, h2, ':', n1, n2] => twoDigitsLE h1 h2 23 && twoDigitsLE n1 n2 59
  | _ => false

/-- What may follow the seconds of an ISO date-time: nothing, `Z`, or a
`±HH:MM` offset. -/
def zoneTail : List Char → Bool
  | [] => true
  | ['Z'] => true
  | '+' :: rest => offsetTail rest
  | '-' :: rest => offsetTail rest
  | _ => false

/-- What may follow `HH:MM:SS`: a zone tail, possibly preceded by a
`.digits` fractional-seconds field. -/
def secondsTail : List Char → Bool
  | '.' :: rest =>
      (rest.takeWhile Char.isDigit).length ≥ 1 &&
      zoneTail (rest.dropWhile Char.isDigit)
  | rest => zoneTail rest

/-- Models `!isNaN(Date.parse(value))` for a string that already matched the
`YYYY-MM-DDTHH:MM:SS` prefix shape: the whole string must be an ISO 8601
date-time acceptable to the ECMAScript date-time string format. -/
def dateTimeParseOk (s : String) : Bool :=
  match s.data with
  | y1 :: y2 :: y3 :: y4 :: '-' :: m1 :: m2 :: '-' :: d1 :: d2 :: 'T' ::
      h1 :: h2 :: ':' :: n1 :: n2 :: ':' :: s1 :: s2 :: rest =>
      validYMD (digitVal y1 * 1000 + digitVal y2 * 100 + digitVal y3 * 10 + digitVal y4)
        (digitVal m1 * 10 + digitVal m2) (digitVal d1 * 10 + digitVal d2) &&
      twoDigitsLE h1 h2 23 && twoDigitsLE n1 n2 59 && twoDigitsLE s1 s2 59 &&
      secondsTail rest
  | _ => false

/-- The format detection of the string branch, in source order with first
match winning: URL parse, else email (`@` and `.` both present), else date
(shape and calendar validity), else date-time (prefix shape and parse),
else no format. -/
def detectFormat (s : String) : Option String :=
  if urlParseOk s then some "uri"
  else if strContains s '@' && strContains s '.' then some "email"
  else if matchDateShape s && dateParseOk s then some "date"
  else if matchDateTimeShape s && dateTimeParseOk s then some "date-time"
  else none

/-! ## JSON values as a heap of references

A JavaScript in-memory value graph: arrays and objects live on a heap and
are denoted by references, so distinct positions can share one identity and
graphs can be cyclic.  Numbers are embedded as rationals (every finite
JavaScript float is one); `Number.isInteger` becomes `den = 1`. -/

/-- A JSON-ish JavaScript value: a primitive, or a reference to an array or
object stored on the heap. -/
inductive JVal : Type where
  | null : JVal
  | bool (b : Bool) : JVal
  | num (q : ℚ) : JVal
  | str (s : String) : JVal
  | arrRef (r : Nat) : JVal
  | objRef (r : Nat) : JVal

/-- The heap: array bodies and object bodies addressed by `Nat` references.
An object body is its `Object.entries` list, in iteration order. -/
structure Heap : Type where
  arrs : List (List JVal)
  objs : List (List (String × JVal))

/-- A value's references point into the heap. -/
def refOk (h : Heap) : JVal → Bool
  | .arrRef r => r < h.arrs.length
  | .objRef r => r < h.objs.length
  | _ => true

/-- Every value stored in the heap has valid references. -/
def heapValid (h : Heap) : Prop :=
  (∀ l ∈ h.arrs, ∀ v ∈ l, refOk h v = true) ∧
  (∀ ps ∈ h.objs, ∀ kv ∈ ps, refOk h kv.2 = true)

/-- Every object body of the heap has duplicate-free keys (JavaScript objects
cannot carry a key twice). -/
def heapKeysNodup (h : Heap) : Prop :=
  ∀ ps ∈ h.objs, (ps.map Prod.fst).Nodup

/-- `l.mapM f` for `Option`, written out so its equations are plain. -/
def optionMapList (f : α → Option β) : List α → Option (List β)
  | [] => some []
  | a :: as =>
      match f a, optionMapList f as with
      | some b, some bs => some (b :: bs)
      | _, _ => none

/-- Embedding of `inferSchema(value, visited)`.

The fuel argument bounds the recursion depth; the source has no such bound,
so `none` for every fuel is the embedding of a call that never returns.
`visited` holds the object references currently on the recursion stack: the
source adds only non-array objects to the `WeakSet` (`visited.add(value)` in
the object branch; the array branch never touches it), deletes the entry
before returning, and the set is otherwise only read — so each child call
receives exactly the set of the enclosing call, extended by the current
object in the object branch (`inferSchemaVis` below threads the mutable set
literally and is proved to agree). -/
def inferSchema (h : Heap) : Nat → JVal → List Nat → Option Schema
  | 0, _, _ => none
  | fuel + 1, v, visited =>
      match v with
      | .null => some nullSchema
      | .arrRef r =>
          match h.arrs[r]? with
          | none => none
          | some l =>
              if l.isEmpty then some (arraySchema emptySchema)
              else
                match optionMapList (fun it => inferSchema h fuel it visited) l with
                | none => none
                | some itemSchemas => some (arraySchema (unifySchemas itemSchemas))
      | .objRef r =>
          if visited.contains r then some degradedObjSchema
          else
            match h.objs[r]? with
            | none => none
            | some entries =>
                match optionMapList
                    (fun kv => (inferSchema h fuel kv.2 (r :: visited)).map
                      (fun sc => (kv.1, sc))) entries with
                | none => none
                | some props => some (objectSchema props (entries.map Prod.fst))
      | .str s => some (stringSchema (detectFormat s))
      | .num q => some (if q.den = 1 then intSchema else numberSchema)
      | .bool _ => some boolSchema

/-! ## The mutable `WeakSet`, threaded literally

`inferSchemaVis` threads the visited set exactly as the source mutates it:
the object branch adds the reference before descending
(`visited.add(value)`), every property call receives the set left by the
previous one, and the entry is deleted before the branch returns
(`visited.delete(value)`).  `inferSchemaVis_eq_inferSchema` proves that each
call returns the set it received, so the pure `inferSchema` above computes
the same fragments. -/

/-- State-threading `mapM` for `Option`: each element receives the state the
previous element left behind. -/
def optionMapListSt (f : α → σ → Option (β × σ)) : List α → σ → Option (List β × σ)
  | [], st => some ([], st)
  | a :: as, st =>
      match f a st with
      | none => none
      | some (b, st') =>
          match optionMapListSt f as st' with
          | none => none
          | some (bs, st'') => some (b :: bs, st'')

/-- `inferSchema` with the `WeakSet` threaded as mutable state, exactly as in
the source: the result pairs the fragment with the visited set as it stands
when the call returns. -/
def inferSchemaVis (h : Heap) : Nat → JVal → List Nat → Option (Schema × List Nat)
  | 0, _, _ => none
  | fuel + 1, v, visited =>
      match v with
      | .null => some (nullSchema, visited)
      | .arrRef r =>
          match h.arrs[r]? with
          | none => none
          | some l =>
              if l.isEmpty then some (arraySchema emptySchema, visited)
              else
                match optionMapListSt (fun it st => inferSchemaVis h fuel it st) l visited with
                | none => none
                | some (itemSchemas, st') =>
                    some (arraySchema (unifySchemas itemSchemas), st')
      | .objRef r =>
          if visited.contains r then some (degradedObjSchema, visited)
          else
            match h.objs[r]? with
            | none => none
            | some entries =>
                match optionMapListSt
                    (fun kv st => (inferSchemaVis h fuel kv.2 st).map
                      (fun p => ((kv.1, p.1), p.2))) entries (r :: visited) with
                | none => none
                | some (props, st') =>
                    some (objectSchema props (entries.map Prod.fst), st'.erase r)
      | .str s => some (stringSchema (detectFormat s), visited)
      | .num q => some ((if q.den = 1 then intSchema else numberSchema), visited)
      | .bool _ => some (boolSchema, visited)

/-- A state-threading map whose body only reads the state computes the pure
map and returns the state unchanged. -/
theorem optionMapListSt_of_ro (f : α → σ → Option β) (fV : α → σ → Option (β × σ))
    (hf : ∀ a st, fV a st = (f a st).map (fun b => (b, st))) :
    ∀ (l : List α) (st : σ),
      optionMapListSt fV l st = (optionMapList (fun a => f a st) l).map (fun bs => (bs, st)) := by
  intro l
  induction l with
  | nil => intro st; rfl
  | cons a as ih =>
      intro st
      simp only [optionMapListSt, optionMapList, hf a st]
      cases hfa : f a st with
      | none => rfl
      | some b =>
          simp only [Option.map_some']
          rw [ih st]
          cases optionMapList (fun a => f a st) as <;> rfl

/-- The threaded interpreter agrees with the pure one and always returns the
visited set it received: the `add`/`delete` discipline of the source restores
the `WeakSet` on exit from every call. -/
theorem inferSchemaVis_eq_inferSchema (h : Heap) :
    ∀ (fuel : Nat) (v : JVal) (visited : List Nat),
      inferSchemaVis h fuel v visited
        = (inferSchema h fuel v visited).map (fun s => (s, visited)) := by
  intro fuel
  induction fuel with
  | zero => intro v visited; rfl
  | succ fuel ih =>
      intro v visited
      cases v with
      | null => rfl
      | str s => rfl
      | num q => rfl
      | bool b => rfl
      | arrRef r =>
          simp only [inferSchemaVis, inferSchema]
          cases h.arrs[r]? with
          | none => rfl
          | some l =>
              by_cases hl : l.isEmpty
              · simp [hl]
              · simp only [hl, if_false, Bool.false_eq_true]
                rw [optionMapListSt_of_ro (fun it st => inferSchema h fuel it st) _
                  (fun a st => ih a st) l visited]
                cases optionMapList (fun it => inferSchema h fuel it visited) l <;> rfl
      | objRef r =>
          by_cases hr : r ∈ visited
          · simp [inferSchemaVis, inferSchema, hr]
          · have heq := optionMapListSt_of_ro
              (fun (kv : String × JVal) (st : List Nat) =>
                (inferSchema h fuel kv.2 st).map (fun sc => (kv.1, sc)))
              (fun kv st => (inferSchemaVis h fuel kv.2 st).map (fun p => ((kv.1, p.1), p.2)))
              (fun kv st => by
                show (inferSchemaVis h fuel kv.2 st).map (fun p => ((kv.1, p.1), p.2))
                    = ((inferSchema h fuel kv.2 st).map (fun sc => (kv.1, sc))).map
                        (fun b => (b, st))
                rw [ih kv.2 st]; cases inferSchema h fuel kv.2 st <;> rfl)
            have hc : visited.contains r = false := by simpa using hr
            simp only [inferSchemaVis, inferSchema]
            rw [hc]
            simp only [Bool.false_eq_true, if_false]
            cases ho : h.objs[r]? with
            | none => rfl
            | some entries =>
                simp only [heq]
                cases optionMapList
                    (fun kv => (inferSchema h fuel kv.2 (r :: visited)).map
                      (fun sc => (kv.1, sc))) entries with
                | none => rfl
                | some props => simp [List.erase_cons_head]

/-! ## Basic facts about `optionMapList` -/

theorem optionMapList_isSome {f : α → Option β} :
    ∀ {l : List α}, (∀ a ∈ l, (f a).isSome = true) →
      (optionMapList f l).isSome = true := by
  intro l
  induction l with
  | nil => intro _; rfl
  | cons a as ih =>
      intro hall
      have ha := hall a (by simp)
      have has := ih (fun x hx => hall x (by simp [hx]))
      simp only [optionMapList]
      cases hfa : f a with
      | none => rw [hfa] at ha; simp at ha
      | some b =>
          cases hmas : optionMapList f as with
          | none => rw [hmas] at has; simp at has
          | some bs => rfl

theorem optionMapList_mem_of {f : α → Option β} :
    ∀ {l : List α} {bs : List β}, optionMapList f l = some bs →
      ∀ b ∈ bs, ∃ a ∈ l, f a = some b := by
  intro l
  induction l with
  | nil =>
      intro bs hbs b hb
      simp only [optionMapList] at hbs
      cases hbs; simp at hb
  | cons a as ih =>
      intro bs hbs b hb
      simp only [optionMapList] at hbs
      cases hfa : f a with
      | none => rw [hfa] at hbs; exact absurd hbs (by simp)
      | some b0 =>
          rw [hfa] at hbs
          cases hmas : optionMapList f as with
          | none => rw [hmas] at hbs; exact absurd hbs (by simp)
          | some bs0 =>
              rw [hmas] at hbs
              cases hbs
              rcases List.mem_cons.mp hb with hb | hb
              · exact ⟨a, by simp, by rw [hfa, hb]⟩
              · rcases ih hmas b hb with ⟨a', ha', hfa'⟩
                exact ⟨a', by simp [ha'], hfa'⟩

theorem optionMapList_forall_mem {f : α → Option β} :
    ∀ {l : List α} {bs : List β}, optionMapList f l = some bs →
      ∀ a ∈ l, ∃ b ∈ bs, f a = some b := by
  intro l
  induction l with
  | nil => intro bs _ a ha; simp at ha
  | cons a0 as ih =>
      intro bs hbs a ha
      simp only [optionMapList] at hbs
      cases hfa : f a0 with
      | none => rw [hfa] at hbs; exact absurd hbs (by simp)
      | some b0 =>
          rw [hfa] at hbs
          cases hmas : optionMapList f as with
          | none => rw [hmas] at hbs; exact absurd hbs (by simp)
          | some bs0 =>
              rw [hmas] at hbs
              cases hbs
              rcases List.mem_cons.mp ha with ha | ha
              · exact ⟨b0, by simp, by rw [ha, hfa]⟩
              · rcases ih hmas a ha with ⟨b, hb, hfb⟩
                exact ⟨b, by simp [hb], hfb⟩

/-- Inferring the properties of an object keeps the keys of the entries, in
order. -/
theorem optionMapList_keys {g : String × JVal → Option Schema} :
    ∀ {entries : List (String × JVal)} {ps : List (String × Schema)},
      optionMapList (fun kv => (g kv).map (fun sc => (kv.1, sc))) entries = some ps →
      ps.map Prod.fst = entries.map Prod.fst := by
  intro entries
  induction entries with
  | nil => intro ps hps; cases hps; rfl
  | cons kv tl ih =>
      intro ps hps
      simp only [optionMapList] at hps
      cases hg : g kv with
      | none => rw [hg] at hps; simp at hps
      | some sc =>
          rw [hg] at hps
          cases hmtl : optionMapList (fun kv => (g kv).map (fun sc => (kv.1, sc))) tl with
          | none => rw [hmtl] at hps; simp at hps
          | some ps0 =>
              rw [hmtl] at hps
              simp only [Option.map_some'] at hps
              cases hps
              simp [ih hmtl]

/-! ## Termination of `inferSchema`

The object branch's cycle guard bounds how often objects can be re-entered,
but the array branch never consults the visited set, so recursion through
arrays only terminates while the direct array-to-array reference graph is
descending.  `rankOk` packages that as an explicit ranking of array
references; under it, `inferWt` is a fuel bound sufficient for `inferSchema`
to return. -/

/-- Maximum of a list of naturals (0 for the empty list). -/
def listMax : List Nat → Nat
  | [] => 0
  | a :: t => max a (listMax t)

theorem le_listMax_of_mem {a : Nat} : ∀ {l : List Nat}, a ∈ l → a ≤ listMax l := by
  intro l
  induction l with
  | nil => intro hmem; simp at hmem
  | cons b t ih =>
      intro hmem
      rcases List.mem_cons.mp hmem with rfl | hmem
      · simp [listMax]
      · exact le_trans (ih hmem) (le_max_right _ _)

/-- An upper bound for `rank` over all array references of the heap. -/
def maxRank (h : Heap) (rank : Nat → Nat) : Nat :=
  listMax ((List.range h.arrs.length).map rank)

theorem rank_le_maxRank (h : Heap) (rank : Nat → Nat) {r : Nat}
    (hr : r < h.arrs.length) : rank r ≤ maxRank h rank :=
  le_listMax_of_mem (List.mem_map_of_mem rank (List.mem_range.mpr hr))

/-- `rank` strictly decreases along a direct array-element-of-array edge of
the heap.  Such a ranking exists exactly when recursion cannot chase an
array-only cycle. -/
def rankOk (h : Heap) (rank : Nat → Nat) : Prop :=
  ∀ r l r', h.arrs[r]? = some l → JVal.arrRef r' ∈ l → rank r' < rank r

/-- How many object references are not yet on the recursion stack. -/
def freeObjs (n : Nat) (visited : List Nat) : Nat :=
  ((List.range n).filter (fun i => !(visited.contains i))).length

/-- The array-rank component of the recursion measure. -/
def localRank (rank : Nat → Nat) : JVal → Nat
  | .arrRef r => rank r + 1
  | _ => 0

/-- Fuel sufficient for `inferSchema h fuel v visited` to return. -/
def inferWt (h : Heap) (rank : Nat → Nat) (v : JVal) (visited : List Nat) : Nat :=
  freeObjs h.objs.length visited * (maxRank h rank + 2) + localRank rank v + 1

theorem localRank_le_of_refOk (h : Heap) (rank : Nat → Nat) {v : JVal}
    (hv : refOk h v = true) : localRank rank v ≤ maxRank h rank + 1 := by
  cases v with
  | arrRef r =>
      have hr : r < h.arrs.length := by simpa [refOk] using hv
      exact Nat.succ_le_succ (rank_le_maxRank h rank hr)
  | null => simp [localRank]
  | bool b => simp [localRank]
  | num q => simp [localRank]
  | str s => simp [localRank]
  | objRef r => simp [localRank]

/-- Removing one satisfying, present element from the filter count. -/
theorem filter_length_drop_one {r : Nat} {p : Nat → Bool} :
    ∀ {l : List Nat}, l.Nodup → r ∈ l → p r = true →
      (l.filter (fun i => !(i == r) && p i)).length + 1 = (l.filter p).length := by
  intro l
  induction l with
  | nil => intro _ hr; simp at hr
  | cons a t ih =>
      intro hnd hr hp
      have hnd' := List.nodup_cons.mp hnd
      by_cases hae : a = r
      · subst hae
        have hfeq : t.filter (fun i => !(i == a) && p i) = t.filter p := by
          apply List.filter_congr
          intro x hx
          have hxa : ¬(x = a) := fun hxr => hnd'.1 (hxr ▸ hx)
          simp [hxa]
        simp [List.filter_cons, hp, hfeq]
      · have hrt : r ∈ t := by
          rcases List.mem_cons.mp hr with h1 | h2
          · exact absurd h1.symm hae
          · exact h2
        have hrec := ih hnd'.2 hrt hp
        by_cases hpa : p a = true
        · have hba : (!(a == r) && p a) = true := by simp [hae, hpa]
          rw [List.filter_cons, List.filter_cons, if_pos hba, if_pos hpa]
          simp only [List.length_cons]
          omega
        · have hpaf : p a = false := by
            cases hpav : p a
            · rfl
            · exact absurd hpav hpa
          have hba : (!(a == r) && p a) = false := by simp [hpaf]
          rw [List.filter_cons, List.filter_cons,
            if_neg (by simp [hba]), if_neg (by simp [hpaf])]
          exact hrec

theorem freeObjs_cons {n r : Nat} {visited : List Nat} (hr : r < n)
    (hnv : r ∉ visited) :
    freeObjs n (r :: visited) + 1 = freeObjs n visited := by
  unfold freeObjs
  have hpt : ∀ i ∈ List.range n,
      (!(List.contains (r :: visited) i)) = (!(i == r) && !(List.contains visited i)) := by
    intro i _
    by_cases hir : i = r <;> simp [hir, List.contains_cons]
  rw [List.filter_congr hpt]
  exact filter_length_drop_one (List.nodup_range n) (List.mem_range.mpr hr)
    (by simp [hnv])

/-- With valid references and a ranking of the array graph, `inferWt` fuel
suffices: `inferSchema` returns a fragment. -/
theorem inferSchema_isSome_of_wt (h : Heap) (rank : Nat → Nat)
    (hval : heapValid h) (hrank : rankOk h rank) :
    ∀ (fuel : Nat) (v : JVal) (visited : List Nat), refOk h v = true →
      inferWt h rank v visited ≤ fuel → (inferSchema h fuel v visited).isSome = true := by
  intro fuel
  induction fuel with
  | zero =>
      intro v visited _ hwt
      exfalso
      have h1 : 1 ≤ inferWt h rank v visited := by
        unfold inferWt; omega
      omega
  | succ fuel ih =>
      intro v visited hv hwt
      cases v with
      | null => simp [inferSchema]
      | str s => simp [inferSchema]
      | num q => simp [inferSchema]
      | bool b => simp [inferSchema]
      | arrRef r =>
          have hr : r < h.arrs.length := by simpa [refOk] using hv
          have hsome : h.arrs[r]? = some h.arrs[r] := List.getElem?_eq_getElem hr
          simp only [inferSchema, hsome]
          by_cases he : h.arrs[r].isEmpty
          · simp [he]
          · have hef : h.arrs[r].isEmpty = false := by
              cases hev : h.arrs[r].isEmpty
              · rfl
              · exact absurd hev he
            rw [hef]
            simp only [Bool.false_eq_true, if_false]
            have hall : ∀ it ∈ h.arrs[r], (inferSchema h fuel it visited).isSome = true := by
              intro it hit
              have hitOk : refOk h it = true := hval.1 h.arrs[r] (List.getElem_mem hr) it hit
              apply ih it visited hitOk
              have hlrlt : localRank rank it < localRank rank (JVal.arrRef r) := by
                cases it with
                | arrRef r' =>
                    have : rank r' < rank r := hrank r h.arrs[r] r' hsome hit
                    simp only [localRank]; omega
                | null => simp [localRank]
                | bool b => simp [localRank]
                | num q => simp [localRank]
                | str s => simp [localRank]
                | objRef r' => simp [localRank]
              have h2 : inferWt h rank it visited
                  = freeObjs h.objs.length visited * (maxRank h rank + 2)
                    + localRank rank it + 1 := rfl
              have h3 : inferWt h rank (JVal.arrRef r) visited
                  = freeObjs h.objs.length visited * (maxRank h rank + 2)
                    + localRank rank (JVal.arrRef r) + 1 := rfl
              omega
            have hms := optionMapList_isSome (f := fun it => inferSchema h fuel it visited) hall
            cases hm : optionMapList (fun it => inferSchema h fuel it visited) h.arrs[r] with
            | none => rw [hm] at hms; simp at hms
            | some its => simp
      | objRef r =>
          by_cases hmem : r ∈ visited
          · simp [inferSchema, hmem]
          · have hr : r < h.objs.length := by simpa [refOk] using hv
            have hsome : h.objs[r]? = some h.objs[r] := List.getElem?_eq_getElem hr
            have hfree : freeObjs h.objs.length (r :: visited) + 1
                = freeObjs h.objs.length visited := freeObjs_cons hr hmem
            have hall : ∀ kv ∈ h.objs[r],
                ((inferSchema h fuel kv.2 (r :: visited)).map
                  (fun sc => (kv.1, sc))).isSome = true := by
              intro kv hkv
              have hkvOk : refOk h kv.2 = true :=
                hval.2 h.objs[r] (List.getElem_mem hr) kv hkv
              have hx : (inferSchema h fuel kv.2 (r :: visited)).isSome = true := by
                apply ih kv.2 (r :: visited) hkvOk
                have hlr : localRank rank kv.2 ≤ maxRank h rank + 1 :=
                  localRank_le_of_refOk h rank hkvOk
                have h1 : inferWt h rank (JVal.objRef r) visited
                    = freeObjs h.objs.length visited * (maxRank h rank + 2) + 1 := by
                  simp [inferWt, localRank]
                have h2 : inferWt h rank kv.2 (r :: visited)
                    = freeObjs h.objs.length (r :: visited) * (maxRank h rank + 2)
                      + localRank rank kv.2 + 1 := rfl
                have h3 : freeObjs h.objs.length visited * (maxRank h rank + 2)
                    = freeObjs h.objs.length (r :: visited) * (maxRank h rank + 2)
                      + (maxRank h rank + 2) := by
                  rw [← hfree]; ring
                omega
              cases hc2 : inferSchema h fuel kv.2 (r :: visited) with
              | none => rw [hc2] at hx; simp at hx
              | some sc => simp
            have hms := optionMapList_isSome
              (f := fun (kv : String × JVal) => (inferSchema h fuel kv.2 (r :: visited)).map
                (fun sc => (kv.1, sc))) hall
            have hcf : visited.contains r = false := by simpa using hmem
            simp only [inferSchema]
            rw [hcf]
            simp only [Bool.false_eq_true, if_false]
            rw [hsome]
            cases hm : optionMapList
                (fun kv => (inferSchema h fuel kv.2 (r :: visited)).map
                  (fun sc => (kv.1, sc))) h.objs[r] with
            | none => rw [hm] at hms; simp at hms
            | some props => simp [hm]

/-- Termination of inference from the top-level entry point (empty visited
set), as an existence of sufficient fuel. -/
def InferTerminates (h : Heap) (v : JVal) : Prop :=
  ∃ fuel, (inferSchema h fuel v []).isSome = true

theorem inferTerminates_of_rank (h : Heap) (rank : Nat → Nat)
    (hval : heapValid h) (hrank : rankOk h rank) (v : JVal)
    (hv : refOk h v = true) : InferTerminates h v :=
  ⟨inferWt h rank v [],
    inferSchema_isSome_of_wt h rank hval hrank _ v [] hv le_rfl⟩

/-! ## Structural well-formedness of produced fragments -/

/-- `properties` and `required` are present together or absent together
(true of every fragment the source builds). -/
def propsIffReq (s : Schema) : Bool :=
  s.properties.isSome == s.required.isSome

/-- The `required`/`properties` agreement at one node: when both keys are
present, `required` is exactly the key list of `properties`, without
duplicates.  Nodes carrying only one or neither of the two keys are not
constrained (the claim speaks only of fragments with both). -/
def reqKeysOk : Option (List (String × Schema)) → Option (List String) → Bool
  | some ps, some rs => rs == ps.map Prod.fst && decide (rs.Nodup)
  | _, _ => true

mutual

/-- Every object fragment reachable inside `s` that carries `properties` and
`required` lists exactly its property keys as required, duplicate-free. -/
def claimGood : Schema → Bool
  | .mk _ _ it pr rq ao =>
      reqKeysOk pr rq && claimGoodOpt it && claimGoodProps pr && claimGoodMany ao

def claimGoodOpt : Option Schema → Bool
  | none => true
  | some s => claimGood s

def claimGoodProps : Option (List (String × Schema)) → Bool
  | none => true
  | some ps => claimGoodList ps

def claimGoodList : List (String × Schema) → Bool
  | [] => true
  | (_, v) :: tl => claimGood v && claimGoodList tl

def claimGoodMany : Option (List Schema) → Bool
  | none => true
  | some l => claimGoodAll l

def claimGoodAll : List Schema → Bool
  | [] => true
  | s :: tl => claimGood s && claimGoodAll tl

end

mutual

/-- Placement discipline for `anyOf`, parameterized:
`strict = true` is the claim read literally (an `anyOf` may sit only in the
`items` of a fragment whose `type` is `"array"`); `strict = false` only
requires that an `anyOf` sit in some `items` field.  `allowed` says whether
an `anyOf` may occur at the root of the current fragment. -/
def okAt (strict : Bool) : Bool → Schema → Bool
  | allowed, .mk t _ it pr _ ao =>
      okAny strict allowed ao &&
      okItems strict (!strict || t == some "array") it &&
      okProps strict pr

def okItems (strict : Bool) : Bool → Option Schema → Bool
  | _, none => true
  | allowed, some c => okAt strict allowed c

def okProps (strict : Bool) : Option (List (String × Schema)) → Bool
  | none => true
  | some ps => okPropsList strict ps

def okPropsList (strict : Bool) : List (String × Schema) → Bool
  | [] => true
  | (_, v) :: tl => okAt strict false v && okPropsList strict tl

def okAny (strict : Bool) : Bool → Option (List Schema) → Bool
  | _, none => true
  | allowed, some l => allowed && okAnyList strict l

def okAnyList (strict : Bool) : List Schema → Bool
  | [] => true
  | s :: tl => okAt strict false s && okAnyList strict tl

end

/-- A top-level result obeying the placement discipline: it has a `type`
key, no `anyOf` at its root, and every nested `anyOf` sits where the
discipline allows. -/
def placedOk (strict : Bool) (s : Schema) : Bool :=
  s.type.isSome && okAt strict false s

/-! ## Concrete heaps used by the examples, witnesses and counterexamples -/

/-- The array `[1, 2]`. -/
def h12 : Heap := ⟨[[.num 1, .num 2]], []⟩

/-- The array `[{"a":1},{"a":2,"b":"x"}]`. -/
def h6ex : Heap :=
  ⟨[[.objRef 0, .objRef 1]], [[("a", .num 1)], [("a", .num 2), ("b", .str "x")]]⟩

/-- The array `[1, "x"]`. -/
def h7ex : Heap := ⟨[[.num 1, .str "x"]], []⟩

/-- The array `[[1, "x"], [true]]`. -/
def h10ex : Heap :=
  ⟨[[.arrRef 1, .arrRef 2], [.num 1, .str "x"], [.bool true]], []⟩

/-- The empty array `[]`. -/
def hEmptyArr : Heap := ⟨[[]], []⟩

/-- A self-referential array: `const a = []; a.push(a);`. -/
def hArrCycle : Heap := ⟨[[.arrRef 0]], []⟩

/-- An object whose `self` property is the object itself and whose `bad`
property is a self-referential array. -/
def hObjArrCycle : Heap :=
  ⟨[[.arrRef 0]], [[("self", .objRef 0), ("bad", .arrRef 0)]]⟩

/-- An object with a self-reference and two sibling properties sharing the
identity of a second object: `o = {self: o, a: p, b: p}; p = {x: 1}`. -/
def hSelfSib : Heap :=
  ⟨[], [[("self", .objRef 0), ("a", .objRef 1), ("b", .objRef 1)], [("x", .num 1)]]⟩

/-! ## Divergence on array-only cycles -/

/-- On the self-referential array, inference runs out of any fuel: the source
recursion never returns. -/
theorem arrCycle_diverges :
    ∀ (fuel : Nat) (visited : List Nat),
      inferSchema hArrCycle fuel (.arrRef 0) visited = none := by
  intro fuel
  induction fuel with
  | zero => intro visited; rfl
  | succ fuel ih =>
      intro visited
      have hml : optionMapList (fun it => inferSchema hArrCycle fuel it visited)
          [JVal.arrRef 0] = none := by
        simp [optionMapList, ih visited]
      show (match optionMapList (fun it => inferSchema hArrCycle fuel it visited)
          [JVal.arrRef 0] with
        | none => none
        | some itemSchemas => some (arraySchema (unifySchemas itemSchemas))) = none
      rw [hml]

/-- The same divergence for the array stored in `hObjArrCycle`. -/
theorem objArrCycle_arr_diverges :
    ∀ (fuel : Nat) (visited : List Nat),
      inferSchema hObjArrCycle fuel (.arrRef 0) visited = none := by
  intro fuel
  induction fuel with
  | zero => intro visited; rfl
  | succ fuel ih =>
      intro visited
      have hml : optionMapList (fun it => inferSchema hObjArrCycle fuel it visited)
          [JVal.arrRef 0] = none := by
        simp [optionMapList, ih visited]
      show (match optionMapList (fun it => inferSchema hObjArrCycle fuel it visited)
          [JVal.arrRef 0] with
        | none => none
        | some itemSchemas => some (arraySchema (unifySchemas itemSchemas))) = none
      rw [hml]

/-- Inference on the object of `hObjArrCycle` never returns either: its `bad`
property is the self-referential array. -/
theorem objArrCycle_obj_diverges :
    ∀ (fuel : Nat), inferSchema hObjArrCycle fuel (.objRef 0) [] = none := by
  intro fuel
  cases fuel with
  | zero => rfl
  | succ fuel =>
      have hbad : inferSchema hObjArrCycle fuel (JVal.arrRef 0) [0] = none :=
        objArrCycle_arr_diverges fuel [0]
      show (match optionMapList
          (fun kv => (inferSchema hObjArrCycle fuel kv.2 [0]).map (fun sc => (kv.1, sc)))
          [("self", JVal.objRef 0), ("bad", JVal.arrRef 0)] with
        | none => none
        | some props => some (objectSchema props
            ([("self", JVal.objRef 0), ("bad", JVal.arrRef 0)].map Prod.fst))) = none
      cases hself : inferSchema hObjArrCycle fuel (JVal.objRef 0) [0] with
      | none => simp [optionMapList, hself, hbad]
      | some s => simp [optionMapList, hself, hbad]

/-! ## Case analysis of `unifySchemas` -/

theorem mem_dedupKeepFirst [DecidableEq α] {a : α} :
    ∀ (seen : List α) {l : List α}, a ∈ l → a ∈ seen ∨ a ∈ dedupKeepFirst seen l := by
  intro seen l
  induction l generalizing seen with
  | nil => intro ha; simp at ha
  | cons x xs ih =>
      intro ha
      rcases List.mem_cons.mp ha with rfl | ha
      · by_cases hx : a ∈ seen
        · exact Or.inl hx
        · right; simp [dedupKeepFirst, hx]
      · by_cases hx : x ∈ seen
        · rcases ih seen ha with h1 | h1
          · exact Or.inl h1
          · right; simp [dedupKeepFirst, hx, h1]
        · rcases ih (x :: seen) ha with h1 | h1
          · rcases List.mem_cons.mp h1 with rfl | h1
            · right; simp [dedupKeepFirst, hx]
            · exact Or.inl h1
          · right; simp [dedupKeepFirst, hx, h1]

theorem dedupKeepFirst_of_seen [DecidableEq α] :
    ∀ {seen l : List α}, (∀ a ∈ l, a ∈ seen) → dedupKeepFirst seen l = [] := by
  intro seen l
  induction l generalizing seen with
  | nil => intro _; rfl
  | cons x xs ih =>
      intro hall
      have hx : x ∈ seen := hall x (by simp)
      simp only [dedupKeepFirst, if_pos hx]
      exact ih fun a ha => hall a (by simp [ha])

/-- All elements equal: the distinct-tags list is the singleton. -/
theorem dedupKeepFirst_const [DecidableEq α] {x : α} :
    ∀ {l : List α}, l ≠ [] → (∀ a ∈ l, a = x) → dedupKeepFirst [] l = [x] := by
  intro l
  cases l with
  | nil => intro hne; exact absurd rfl hne
  | cons y ys =>
      intro _ hall
      have hy : y = x := hall y (by simp)
      subst hy
      simp only [dedupKeepFirst, List.not_mem_nil, if_neg (fun h => h)]
      rw [dedupKeepFirst_of_seen]
      intro a ha
      have := hall a (by simp [ha])
      simp [this]

/-- A singleton distinct-tags list forces every tag equal to it. -/
theorem eq_of_dedupKeepFirst_singleton [DecidableEq α] {x : α} {l : List α}
    (hd : dedupKeepFirst [] l = [x]) : ∀ a ∈ l, a = x := by
  intro a ha
  rcases mem_dedupKeepFirst [] ha with h1 | h1
  · simp at h1
  · rw [hd] at h1; simpa using h1

/-- Homogeneous `"object"` input: `unifySchemas` runs the object merge. -/
theorem unifySchemas_all_object {frags : List Schema} (hne : frags ≠ [])
    (hall : ∀ s ∈ frags, s.type = some "object") :
    unifySchemas frags = mergeObjectSchemas frags := by
  cases frags with
  | nil => exact absurd rfl hne
  | cons s0 rest =>
      have hd : dedupKeepFirst [] (s0.type :: rest.map Schema.type) = [some "object"] := by
        apply dedupKeepFirst_const
        · simp
        · intro a ha
          rcases List.mem_cons.mp ha with rfl | ha
          · exact hall s0 (by simp)
          · rcases List.mem_map.mp ha with ⟨s, hs, rfl⟩
            exact hall s (by simp [hs])
      simp [unifySchemas, hd]

/-- Homogeneous non-`"object"` input: `unifySchemas` returns the first
fragment with its `type` key deleted. -/
theorem unifySchemas_all_scalar {frags : List Schema} {s0 : Schema} {rest : List Schema}
    (hfr : frags = s0 :: rest) {t : Option String} (ht : t ≠ some "object")
    (hall : ∀ s ∈ frags, s.type = t) :
    unifySchemas frags = deleteType s0 := by
  subst hfr
  have hd : dedupKeepFirst [] (s0.type :: rest.map Schema.type) = [t] := by
    apply dedupKeepFirst_const
    · simp
    · intro a ha
      rcases List.mem_cons.mp ha with rfl | ha
      · exact hall s0 (by simp)
      · rcases List.mem_map.mp ha with ⟨s, hs, rfl⟩
        exact hall s (by simp [hs])
  simp [unifySchemas, hd, ht]

/-- Heterogeneous input: `unifySchemas` returns `{anyOf: frags}` with the
fragments untouched, in order. -/
theorem unifySchemas_mixed {frags : List Schema} {s1 s2 : Schema}
    (h1 : s1 ∈ frags) (h2 : s2 ∈ frags) (hne : s1.type ≠ s2.type) :
    unifySchemas frags = anyOfSchema frags := by
  cases hfr : frags with
  | nil => subst hfr; simp at h1
  | cons s0 rest =>
      subst hfr
      have hlen : (dedupKeepFirst [] (s0.type :: rest.map Schema.type)).length ≠ 1 := by
        intro hlen1
        rcases List.length_eq_one.mp hlen1 with ⟨x, hx⟩
        have he := eq_of_dedupKeepFirst_singleton hx
        have e1 : s1.type = x := by
          rcases List.mem_cons.mp h1 with rfl | hm
          · exact he _ (by simp)
          · exact he _ (by simp [List.mem_map_of_mem Schema.type hm])
        have e2 : s2.type = x := by
          rcases List.mem_cons.mp h2 with rfl | hm
          · exact he _ (by simp)
          · exact he _ (by simp [List.mem_map_of_mem Schema.type hm])
        exact hne (e1.trans e2.symm)
      simp [unifySchemas, hlen]

/-! ## Preservation of the `required`/`properties` invariant (claim C3) -/

theorem claimGoodAll_iff {l : List Schema} :
    claimGoodAll l = true ↔ ∀ s ∈ l, claimGood s = true := by
  induction l with
  | nil => simp [claimGoodAll]
  | cons s tl ih => simp [claimGoodAll, ih]

theorem claimGoodList_iff {ps : List (String × Schema)} :
    claimGoodList ps = true ↔ ∀ kv ∈ ps, claimGood kv.2 = true := by
  induction ps with
  | nil => simp [claimGoodList]
  | cons kv tl ih =>
      cases kv with
      | mk k v => simp [claimGoodList, ih]

/-- `claimGood` never looks at the `type` field. -/
theorem claimGood_deleteType {s : Schema} :
    claimGood (deleteType s) = claimGood s := by
  cases s; rfl

/-- A value appearing after one `Object.assign` step was either already
present or comes from the assigned pair. -/
theorem mem_assignOne_val {acc : List (String × Schema)} {k : String} {v : Schema}
    {kv : String × Schema} (hkv : kv ∈ assignOne acc k v) :
    (∃ kv0 ∈ acc, kv.2 = kv0.2) ∨ kv.2 = v := by
  unfold assignOne at hkv
  by_cases hk : k ∈ acc.map Prod.fst
  · rw [if_pos hk] at hkv
    rcases List.mem_map.mp hkv with ⟨kv0, hkv0, heq⟩
    by_cases he : kv0.1 = k
    · rw [if_pos he] at heq
      right; rw [← heq]
    · rw [if_neg he] at heq
      left; exact ⟨kv0, hkv0, by rw [← heq]⟩
  · rw [if_neg hk] at hkv
    rcases List.mem_append.mp hkv with hm | hm
    · exact Or.inl ⟨kv, hm, rfl⟩
    · right; simp at hm; rw [hm]

/-- A value appearing after `Object.assign(acc, src)` was already in `acc` or
comes from `src`. -/
theorem mem_assignAll_val {src : List (String × Schema)} :
    ∀ {acc : List (String × Schema)} {kv : String × Schema},
      kv ∈ assignAll acc src →
      (∃ kv0 ∈ acc, kv.2 = kv0.2) ∨ (∃ kv0 ∈ src, kv.2 = kv0.2) := by
  induction src with
  | nil => intro acc kv hkv; exact Or.inl ⟨kv, hkv, rfl⟩
  | cons kv1 tl ih =>
      intro acc kv hkv
      have hkv' : kv ∈ assignAll (assignOne acc kv1.1 kv1.2) tl := hkv
      rcases ih hkv' with ⟨kv0, hkv0, hv⟩ | ⟨kv0, hkv0, hv⟩
      · rcases mem_assignOne_val hkv0 with ⟨kv2, hkv2, hv2⟩ | hv2
        · exact Or.inl ⟨kv2, hkv2, hv.trans hv2⟩
        · exact Or.inr ⟨kv1, by simp, hv.trans hv2⟩
      · exact Or.inr ⟨kv0, by simp [hkv0], hv⟩

/-- A value of the full merged property map comes from some input fragment's
property map. -/
theorem mem_mergeProps_val {frags : List Schema} :
    ∀ {acc : List (String × Schema)} {kv : String × Schema},
      kv ∈ frags.foldl (fun acc s => assignAll acc (s.properties.getD [])) acc →
      (∃ kv0 ∈ acc, kv.2 = kv0.2) ∨
        (∃ s ∈ frags, ∃ kv0 ∈ s.properties.getD [], kv.2 = kv0.2) := by
  induction frags with
  | nil => intro acc kv hkv; exact Or.inl ⟨kv, hkv, rfl⟩
  | cons s tl ih =>
      intro acc kv hkv
      rcases ih hkv with ⟨kv0, hkv0, hv⟩ | ⟨s0, hs0, kv0, hkv0, hv⟩
      · rcases mem_assignAll_val hkv0 with ⟨kv2, hkv2, hv2⟩ | ⟨kv2, hkv2, hv2⟩
        · exact Or.inl ⟨kv2, hkv2, hv.trans hv2⟩
        · exact Or.inr ⟨s, by simp, kv2, hkv2, hv.trans hv2⟩
      · exact Or.inr ⟨s0, by simp [hs0], kv0, hkv0, hv⟩

/-- Assigning keeps the key sequence in `setAdd` discipline. -/
theorem assignOne_keys {acc : List (String × Schema)} {k : String} {v : Schema} :
    (assignOne acc k v).map Prod.fst = setAdd (acc.map Prod.fst) k := by
  unfold assignOne setAdd
  by_cases hk : k ∈ acc.map Prod.fst
  · rw [if_pos hk, if_pos hk]
    rw [List.map_map]
    apply List.map_congr_left
    intro kv _
    by_cases he : kv.1 = k
    · simp [he]
    · simp [he]
  · rw [if_neg hk, if_neg hk]
    simp

theorem assignAll_keys {src : List (String × Schema)} :
    ∀ {acc : List (String × Schema)},
      (assignAll acc src).map Prod.fst = setAddAll (acc.map Prod.fst) (src.map Prod.fst) := by
  induction src with
  | nil => intro acc; rfl
  | cons kv tl ih =>
      intro acc
      have h1 : assignAll acc (kv :: tl) = assignAll (assignOne acc kv.1 kv.2) tl := rfl
      have h2 : setAddAll (acc.map Prod.fst) ((kv :: tl).map Prod.fst)
          = setAddAll (setAdd (acc.map Prod.fst) kv.1) (tl.map Prod.fst) := rfl
      rw [h1, h2, ih, assignOne_keys]

theorem setAdd_nodup [DecidableEq α] {acc : List α} {x : α} (h : acc.Nodup) :
    (setAdd acc x).Nodup := by
  unfold setAdd
  by_cases hx : x ∈ acc
  · rw [if_pos hx]; exact h
  · rw [if_neg hx]
    exact List.Nodup.append h (List.nodup_singleton x) (by simpa using hx)

theorem setAddAll_nodup [DecidableEq α] {l : List α} :
    ∀ {acc : List α}, acc.Nodup → (setAddAll acc l).Nodup := by
  induction l with
  | nil => intro acc h; exact h
  | cons x tl ih =>
      intro acc h
      exact ih (setAdd_nodup h)

theorem mergeRequired_nodup {frags : List Schema} :
    ∀ {acc : List String}, acc.Nodup →
      (frags.foldl (fun acc s => setAddAll acc (s.required.getD [])) acc).Nodup := by
  induction frags with
  | nil => intro acc h; exact h
  | cons s tl ih =>
      intro acc h
      exact ih (setAddAll_nodup h)

/-- Through the merge loop, the accumulated property keys and the accumulated
required set stay equal, provided each fragment carries `properties` and
`required` together and agreeing. -/
theorem mergeProps_keys_eq_required {frags : List Schema}
    (hall : ∀ s ∈ frags, propsIffReq s = true ∧
      reqKeysOk s.properties s.required = true) :
    ∀ (accP : List (String × Schema)) (accR : List String),
      accP.map Prod.fst = accR →
      (frags.foldl (fun acc s => assignAll acc (s.properties.getD [])) accP).map Prod.fst
        = frags.foldl (fun acc s => setAddAll acc (s.required.getD [])) accR := by
  induction frags with
  | nil => intro accP accR h; exact h
  | cons s tl ih =>
      intro accP accR h
      have hs := hall s (by simp)
      have htl : ∀ s0 ∈ tl, propsIffReq s0 = true ∧
          reqKeysOk s0.properties s0.required = true :=
        fun s0 hs0 => hall s0 (by simp [hs0])
      have hstep : (assignAll accP (s.properties.getD [])).map Prod.fst
          = setAddAll accR (s.required.getD []) := by
        cases hpr : s.properties with
        | none =>
            have hrq : s.required = none := by
              have := hs.1
              unfold propsIffReq at this
              rw [hpr] at this
              cases hq : s.required
              · rfl
              · rw [hq] at this; simp at this
            simp only [hpr, hrq, Option.getD_none]
            exact h
        | some ps =>
            have hrq : ∃ rs, s.required = some rs := by
              have := hs.1
              unfold propsIffReq at this
              rw [hpr] at this
              cases hq : s.required
              · rw [hq] at this; simp at this
              · exact ⟨_, rfl⟩
            rcases hrq with ⟨rs, hrs⟩
            have hkeys : rs = ps.map Prod.fst := by
              have := hs.2
              unfold reqKeysOk at this
              rw [hpr, hrs] at this
              simp only [Bool.and_eq_true, beq_iff_eq] at this
              exact this.1
            simp only [hpr, hrs, Option.getD_some]
            rw [assignAll_keys, h, hkeys]
      exact ih htl _ _ hstep

/-- The object merge of `unifySchemas` preserves the claim C3 invariant. -/
theorem mergeObjectSchemas_claimGood {frags : List Schema}
    (hall : ∀ s ∈ frags, claimGood s = true ∧ propsIffReq s = true) :
    claimGood (mergeObjectSchemas frags) = true := by
  have hiff : ∀ s ∈ frags, propsIffReq s = true ∧
      reqKeysOk s.properties s.required = true := by
    intro s hs
    refine ⟨(hall s hs).2, ?_⟩
    have hg := (hall s hs).1
    cases s with
    | mk t f it pr rq ao =>
        unfold claimGood at hg
        simp only [Bool.and_eq_true] at hg
        exact hg.1.1.1
  have hkeysEq := mergeProps_keys_eq_required hiff [] [] rfl
  have hnd : (frags.foldl (fun acc s => setAddAll acc (s.required.getD [])) []).Nodup :=
    mergeRequired_nodup List.nodup_nil
  have hvals : claimGoodList
      (frags.foldl (fun acc s => assignAll acc (s.properties.getD [])) []) = true := by
    rw [claimGoodList_iff]
    intro kv hkv
    rcases mem_mergeProps_val hkv with ⟨kv0, hkv0, _⟩ | ⟨s, hsf, kv0, hkv0, hv⟩
    · simp at hkv0
    · have hg := (hall s hsf).1
      cases s with
      | mk t f it pr rq ao =>
          unfold claimGood at hg
          simp only [Bool.and_eq_true] at hg
          have hprops := hg.1.2
          cases hpr : pr with
          | none => rw [Schema.properties, hpr] at hkv0; simp at hkv0
          | some ps =>
              rw [Schema.properties, hpr] at hkv0
              simp only [Option.getD_some] at hkv0
              rw [hpr] at hprops
              unfold claimGoodProps at hprops
              rw [hv]
              exact claimGoodList_iff.mp hprops kv0 hkv0
  unfold mergeObjectSchemas claimGood
  simp only [Bool.and_eq_true]
  refine ⟨⟨⟨?_, rfl⟩, ?_⟩, rfl⟩
  · unfold reqKeysOk
    simp only [Bool.and_eq_true, beq_iff_eq, decide_eq_true_eq]
    exact ⟨hkeysEq.symm, hnd⟩
  · unfold claimGoodProps
    exact hvals

/-- `unifySchemas` preserves the claim C3 invariant. -/
theorem unifySchemas_claimGood {frags : List Schema}
    (hall : ∀ s ∈ frags, claimGood s = true ∧ propsIffReq s = true) :
    claimGood (unifySchemas frags) = true := by
  cases hfr : frags with
  | nil => rfl
  | cons s0 rest =>
      subst hfr
      by_cases hobj : ∀ s ∈ s0 :: rest, s.type = some "object"
      · rw [unifySchemas_all_object (by simp) hobj]
        exact mergeObjectSchemas_claimGood hall
      · -- either all share one non-object tag, or tags are mixed
        by_cases hone : ∀ s ∈ s0 :: rest, s.type = s0.type
        · have hs0t : s0.type ≠ some "object" := by
            intro hc
            exact hobj (fun s hs => (hone s hs).trans hc)
          rw [unifySchemas_all_scalar rfl hs0t hone]
          rw [claimGood_deleteType]
          exact (hall s0 (by simp)).1
        · push_neg at hone
          rcases hone with ⟨s1, hs1, hne⟩
          rw [unifySchemas_mixed hs1 (show s0 ∈ s0 :: rest by simp) hne]
          unfold anyOfSchema claimGood
          simp only [Bool.and_eq_true]
          refine ⟨⟨⟨rfl, rfl⟩, rfl⟩, ?_⟩
          unfold claimGoodMany
          rw [claimGoodAll_iff]
          exact fun s hs => (hall s hs).1

/-- Every fragment `inferSchema` returns satisfies the claim C3 invariant
(and carries `properties` and `required` together or not at all). -/
theorem inferSchema_claimGood (h : Heap) (hnd : heapKeysNodup h) :
    ∀ (fuel : Nat) (v : JVal) (visited : List Nat) (s : Schema),
      inferSchema h fuel v visited = some s →
      claimGood s = true ∧ propsIffReq s = true := by
  intro fuel
  induction fuel with
  | zero =>
      intro v visited s hs
      exact absurd hs (by simp [inferSchema])
  | succ fuel ih =>
      intro v visited s hs
      cases v with
      | null =>
          simp only [inferSchema] at hs
          cases hs; exact ⟨rfl, rfl⟩
      | str str0 =>
          simp only [inferSchema] at hs
          cases hs; exact ⟨rfl, rfl⟩
      | bool b =>
          simp only [inferSchema] at hs
          cases hs; exact ⟨rfl, rfl⟩
      | num q =>
          simp only [inferSchema] at hs
          by_cases hq : q.den = 1
          · rw [if_pos hq] at hs; cases hs; exact ⟨rfl, rfl⟩
          · rw [if_neg hq] at hs; cases hs; exact ⟨rfl, rfl⟩
      | arrRef r =>
          simp only [inferSchema] at hs
          split at hs
          · exact absurd hs (by simp)
          · split at hs
            · cases hs; exact ⟨rfl, rfl⟩
            · split at hs
              · exact absurd hs (by simp)
              · rename_i l ho he its hm
                cases hs
                have hchild : ∀ s' ∈ its, claimGood s' = true ∧ propsIffReq s' = true := by
                  intro s' hs'
                  rcases optionMapList_mem_of hm s' hs' with ⟨a, _, hfa⟩
                  exact ih a visited s' hfa
                have hu := unifySchemas_claimGood hchild
                constructor
                · simp [arraySchema, claimGood, claimGoodOpt, claimGoodProps,
                    claimGoodMany, reqKeysOk, hu]
                · rfl
      | objRef r =>
          simp only [inferSchema] at hs
          split at hs
          · cases hs; exact ⟨rfl, rfl⟩
          · split at hs
            · exact absurd hs (by simp)
            · split at hs
              · exact absurd hs (by simp)
              · rename_i entries ho hguard props hm
                cases hs
                have hkeys : props.map Prod.fst = entries.map Prod.fst :=
                  optionMapList_keys hm
                have hndk : (entries.map Prod.fst).Nodup :=
                  hnd entries (List.getElem?_mem ho)
                have hvals : ∀ kv ∈ props, claimGood kv.2 = true := by
                  intro kv hkv
                  rcases optionMapList_mem_of hm kv hkv with ⟨a, _, hfa⟩
                  cases hia : inferSchema h fuel a.2 (r :: visited) with
                  | none => rw [hia] at hfa; simp at hfa
                  | some sc =>
                      rw [hia] at hfa
                      simp only [Option.map_some'] at hfa
                      have hkv2 : (a.1, sc) = kv := Option.some.inj hfa
                      rw [← hkv2]
                      exact (ih a.2 (r :: visited) sc hia).1
                have h1 : reqKeysOk (some props) (some (entries.map Prod.fst)) = true := by
                  unfold reqKeysOk
                  simp only [Bool.and_eq_true, beq_iff_eq, decide_eq_true_eq]
                  exact ⟨hkeys.symm, hndk⟩
                have h2 : claimGoodList props = true := claimGoodList_iff.mpr hvals
                constructor
                · simp [objectSchema, claimGood, claimGoodOpt, claimGoodProps,
                    claimGoodMany, h1, h2]
                · rfl

/-! ## Placement of `anyOf` fragments (claim C10) -/

theorem okAnyList_iff {strict : Bool} {l : List Schema} :
    okAnyList strict l = true ↔ ∀ s ∈ l, okAt strict false s = true := by
  induction l with
  | nil => simp [okAnyList]
  | cons s tl ih => simp [okAnyList, ih]

theorem okPropsList_iff {strict : Bool} {ps : List (String × Schema)} :
    okPropsList strict ps = true ↔ ∀ kv ∈ ps, okAt strict false kv.2 = true := by
  induction ps with
  | nil => simp [okPropsList]
  | cons kv tl ih =>
      cases kv with
      | mk k v => simp [okPropsList, ih]

/-- In the loose discipline, a fragment fine at a forbidden position is fine
anywhere: its own root carries no `anyOf`. -/
theorem okAt_false_of_allowed {s : Schema} {b : Bool}
    (h : okAt false false s = true) : okAt false b s = true := by
  cases s with
  | mk t f it pr rq ao =>
      unfold okAt at h ⊢
      simp only [Bool.and_eq_true] at h ⊢
      refine ⟨⟨?_, h.1.2⟩, h.2⟩
      cases ao with
      | none => rfl
      | some l =>
          exfalso
          have := h.1
          unfold okAny at this
          simp at this

/-- The loose discipline never looks at the `type` field. -/
theorem okAt_deleteType {s : Schema} {b : Bool} :
    okAt false b (deleteType s) = okAt false b s := by
  cases s; rfl

/-- `unifySchemas` output may sit in an `items` position: the loose
discipline holds there when every input obeys it at a non-`items`
position and has a `type`. -/
theorem unifySchemas_okAt {frags : List Schema}
    (hall : ∀ s ∈ frags, s.type.isSome = true ∧ okAt false false s = true) :
    okAt false true (unifySchemas frags) = true := by
  cases hfr : frags with
  | nil => rfl
  | cons s0 rest =>
      subst hfr
      by_cases hobj : ∀ s ∈ s0 :: rest, s.type = some "object"
      · rw [unifySchemas_all_object (by simp) hobj]
        unfold mergeObjectSchemas okAt
        simp only [Bool.and_eq_true]
        refine ⟨⟨rfl, rfl⟩, ?_⟩
        unfold okProps
        rw [okPropsList_iff]
        intro kv hkv
        rcases mem_mergeProps_val hkv with ⟨kv0, hkv0, _⟩ | ⟨s, hsf, kv0, hkv0, hv⟩
        · simp at hkv0
        · have hg := (hall s hsf).2
          cases s with
          | mk t f it pr rq ao =>
              unfold okAt at hg
              simp only [Bool.and_eq_true] at hg
              have hprops := hg.2
              cases hpr : pr with
              | none => rw [Schema.properties, hpr] at hkv0; simp at hkv0
              | some ps =>
                  rw [Schema.properties, hpr] at hkv0
                  simp only [Option.getD_some] at hkv0
                  rw [hpr] at hprops
                  unfold okProps at hprops
                  rw [hv]
                  exact okPropsList_iff.mp hprops kv0 hkv0
      · by_cases hone : ∀ s ∈ s0 :: rest, s.type = s0.type
        · have hs0t : s0.type ≠ some "object" := by
            intro hc
            exact hobj (fun s hs => (hone s hs).trans hc)
          rw [unifySchemas_all_scalar rfl hs0t hone]
          rw [okAt_deleteType]
          exact okAt_false_of_allowed (hall s0 (by simp)).2
        · push_neg at hone
          rcases hone with ⟨s1, hs1, hne⟩
          rw [unifySchemas_mixed hs1 (show s0 ∈ s0 :: rest by simp) hne]
          unfold anyOfSchema okAt
          simp only [Bool.and_eq_true]
          refine ⟨⟨?_, rfl⟩, rfl⟩
          unfold okAny
          simp only [Bool.true_and]
          rw [okAnyList_iff]
          exact fun s hs => (hall s hs).2

/-- Every fragment `inferSchema` returns has a `type` at its root and obeys
the loose `anyOf` placement discipline: `anyOf` appears only inside `items`
fields. -/
theorem inferSchema_placedOk (h : Heap) :
    ∀ (fuel : Nat) (v : JVal) (visited : List Nat) (s : Schema),
      inferSchema h fuel v visited = some s → placedOk false s = true := by
  intro fuel
  induction fuel with
  | zero =>
      intro v visited s hs
      exact absurd hs (by simp [inferSchema])
  | succ fuel ih =>
      intro v visited s hs
      cases v with
      | null => simp only [inferSchema] at hs; cases hs; rfl
      | str str0 => simp only [inferSchema] at hs; cases hs; rfl
      | bool b => simp only [inferSchema] at hs; cases hs; rfl
      | num q =>
          simp only [inferSchema] at hs
          by_cases hq : q.den = 1
          · rw [if_pos hq] at hs; cases hs; rfl
          · rw [if_neg hq] at hs; cases hs; rfl
      | arrRef r =>
          simp only [inferSchema] at hs
          split at hs
          · exact absurd hs (by simp)
          · split at hs
            · cases hs; rfl
            · split at hs
              · exact absurd hs (by simp)
              · rename_i l ho he its hm
                cases hs
                have hchild : ∀ s' ∈ its, s'.type.isSome = true ∧
                    okAt false false s' = true := by
                  intro s' hs'
                  rcases optionMapList_mem_of hm s' hs' with ⟨a, _, hfa⟩
                  have := ih a visited s' hfa
                  unfold placedOk at this
                  simpa [Bool.and_eq_true] using this
                have hu := unifySchemas_okAt hchild
                unfold placedOk arraySchema okAt
                simp only [Bool.and_eq_true]
                exact ⟨rfl, ⟨⟨rfl, hu⟩, rfl⟩⟩
      | objRef r =>
          simp only [inferSchema] at hs
          split at hs
          · cases hs; rfl
          · split at hs
            · exact absurd hs (by simp)
            · split at hs
              · exact absurd hs (by simp)
              · rename_i entries ho hguard props hm
                cases hs
                have hvals : ∀ kv ∈ props, okAt false false kv.2 = true := by
                  intro kv hkv
                  rcases optionMapList_mem_of hm kv hkv with ⟨a, _, hfa⟩
                  cases hia : inferSchema h fuel a.2 (r :: visited) with
                  | none => rw [hia] at hfa; simp at hfa
                  | some sc =>
                      rw [hia] at hfa
                      simp only [Option.map_some'] at hfa
                      have hkv2 : (a.1, sc) = kv := Option.some.inj hfa
                      rw [← hkv2]
                      have := ih a.2 (r :: visited) sc hia
                      unfold placedOk at this
                      simp only [Bool.and_eq_true] at this
                      exact this.2
                unfold placedOk objectSchema okAt
                simp only [Bool.and_eq_true]
                refine ⟨rfl, ⟨⟨rfl, rfl⟩, ?_⟩⟩
                unfold okProps
                rw [okPropsList_iff]
                exact hvals

/-! ## The object merge, described the way the spec words it (claim C6)

The implementation folds `Object.assign` and `Set.add` over the fragment
sequence.  The spec instead describes the result directly: the union of all
property keys in first-seen order, each bound to its last-write-wins value,
and the deduplicated union of the required lists.  The definitions below
state that description independently; the theorems prove the fold refines
it. -/

/-- Plain association lookup (first match) on a property list. -/
def assocFind (k : String) : List (String × Schema) → Option Schema
  | [] => none
  | (k0, v) :: tl => if k = k0 then some v else assocFind k tl

/-- The binding of `k` in one fragment's `properties`, if any. -/
def lookupProp (k : String) (s : Schema) : Option Schema :=
  assocFind k (s.properties.getD [])

/-- Last-write-wins value of key `k` across the fragment sequence: the
binding in the latest fragment carrying `k`. -/
def lwwValue (k : String) : List Schema → Option Schema
  | [] => none
  | s :: tl => (lwwValue k tl).orElse (fun _ => lookupProp k s)

/-- All property keys of the inputs, in first-seen order. -/
def specMergedKeys (frags : List Schema) : List String :=
  dedupKeepFirst [] (frags.flatMap (fun s => (s.properties.getD []).map Prod.fst))

/-- The merged property map as described: first-seen key order, each key
bound to its last-write-wins value. -/
def specMergedProps (frags : List Schema) : List (String × Schema) :=
  (specMergedKeys frags).map (fun k => (k, (lwwValue k frags).getD emptySchema))

/-- The merged `required` list as described: the concatenation of all
inputs' `required` lists, deduplicated keeping first occurrences. -/
def specRequired (frags : List Schema) : List String :=
  dedupKeepFirst [] (frags.flatMap (fun s => s.required.getD []))

theorem setAddAll_append [DecidableEq α] (acc l1 l2 : List α) :
    setAddAll acc (l1 ++ l2) = setAddAll (setAddAll acc l1) l2 :=
  List.foldl_append setAdd acc l1 l2

theorem dedupKeepFirst_congr [DecidableEq α] :
    ∀ (l : List α) {seen seen' : List α}, (∀ a, a ∈ seen ↔ a ∈ seen') →
      dedupKeepFirst seen l = dedupKeepFirst seen' l := by
  intro l
  induction l with
  | nil => intro seen seen' _; rfl
  | cons x xs ih =>
      intro seen seen' h
      by_cases hx : x ∈ seen
      · have hx' : x ∈ seen' := (h x).mp hx
        simp only [dedupKeepFirst, if_pos hx, if_pos hx']
        exact ih h
      · have hx' : x ∉ seen' := fun hc => hx ((h x).mpr hc)
        simp only [dedupKeepFirst, if_neg hx, if_neg hx']
        refine congrArg (fun t => x :: t) (ih ?_)
        intro a
        simp [List.mem_cons, h a]

theorem setAddAll_eq_dedup [DecidableEq α] :
    ∀ (l acc : List α), setAddAll acc l = acc ++ dedupKeepFirst acc l := by
  intro l
  induction l with
  | nil => intro acc; simp [setAddAll, dedupKeepFirst]
  | cons x xs ih =>
      intro acc
      show setAddAll (setAdd acc x) xs = _
      by_cases hx : x ∈ acc
      · rw [show setAdd acc x = acc from if_pos hx]
        rw [ih acc]
        simp only [dedupKeepFirst, if_pos hx]
      · rw [show setAdd acc x = acc ++ [x] from if_neg hx]
        rw [ih (acc ++ [x])]
        simp only [dedupKeepFirst, if_neg hx]
        rw [dedupKeepFirst_congr xs
          (show ∀ a, a ∈ acc ++ [x] ↔ a ∈ x :: acc by
            intro a; simp [List.mem_append, or_comm])]
        simp

theorem foldl_setAddAll_flat (g : Schema → List String) :
    ∀ (frags : List Schema) (acc : List String),
      frags.foldl (fun acc s => setAddAll acc (g s)) acc
        = setAddAll acc (frags.flatMap g) := by
  intro frags
  induction frags with
  | nil => intro acc; rfl
  | cons s tl ih =>
      intro acc
      show tl.foldl _ (setAddAll acc (g s)) = _
      rw [ih]
      rw [show (s :: tl).flatMap g = g s ++ tl.flatMap g from rfl]
      rw [setAddAll_append]

/-- The fold of `Set.add` over the inputs' required lists is exactly the
spec's deduplicated union. -/
theorem mergeRequired_eq_spec (frags : List Schema) :
    frags.foldl (fun acc s => setAddAll acc (s.required.getD [])) []
      = specRequired frags := by
  rw [foldl_setAddAll_flat (fun s => s.required.getD [])]
  rw [setAddAll_eq_dedup]
  simp [specRequired]

theorem foldl_assign_keys :
    ∀ (frags : List Schema) (accP : List (String × Schema)),
      (frags.foldl (fun acc s => assignAll acc (s.properties.getD [])) accP).map Prod.fst
        = frags.foldl (fun acc s => setAddAll acc ((s.properties.getD []).map Prod.fst))
            (accP.map Prod.fst) := by
  intro frags
  induction frags with
  | nil => intro accP; rfl
  | cons s tl ih =>
      intro accP
      show (tl.foldl _ (assignAll accP (s.properties.getD []))).map Prod.fst = _
      rw [ih, assignAll_keys, List.foldl_cons]

/-- The keys of the folded `Object.assign` merge are the spec's first-seen
key union. -/
theorem mergeProps_keys_eq_spec (frags : List Schema) :
    (frags.foldl (fun acc s => assignAll acc (s.properties.getD [])) []).map Prod.fst
      = specMergedKeys frags := by
  rw [foldl_assign_keys]
  rw [foldl_setAddAll_flat (fun s => (s.properties.getD []).map Prod.fst)]
  rw [setAddAll_eq_dedup]
  simp [specMergedKeys]

theorem assocFind_eq_none {k : String} :
    ∀ {ps : List (String × Schema)}, k ∉ ps.map Prod.fst → assocFind k ps = none := by
  intro ps
  induction ps with
  | nil => intro _; rfl
  | cons kv tl ih =>
      intro hk
      cases kv with
      | mk k0 v =>
          simp only [List.map_cons, List.mem_cons] at hk
          push_neg at hk
          simp only [assocFind, if_neg hk.1]
          exact ih hk.2

theorem assocFind_isSome {k : String} :
    ∀ {ps : List (String × Schema)}, k ∈ ps.map Prod.fst →
      (assocFind k ps).isSome = true := by
  intro ps
  induction ps with
  | nil => intro hk; simp at hk
  | cons kv tl ih =>
      intro hk
      cases kv with
      | mk k0 v =>
          by_cases he : k = k0
          · simp [assocFind, he]
          · simp only [List.map_cons, List.mem_cons] at hk
            rcases hk with h1 | h1
            · exact absurd h1 he
            · simp only [assocFind, if_neg he]
              exact ih h1

theorem assocFind_append {k : String} (l1 l2 : List (String × Schema)) :
    assocFind k (l1 ++ l2) = (assocFind k l1).orElse (fun _ => assocFind k l2) := by
  induction l1 with
  | nil => rfl
  | cons kv tl ih =>
      cases kv with
      | mk k0 v =>
          by_cases hk : k = k0
          · simp [assocFind, hk]
          · simp only [List.cons_append, assocFind, if_neg hk]
            exact ih

theorem assocFind_overwrite {k : String} {v : Schema} :
    ∀ {acc : List (String × Schema)}, k ∈ acc.map Prod.fst →
      assocFind k (acc.map (fun kv => if kv.1 = k then (k, v) else kv)) = some v := by
  intro acc
  induction acc with
  | nil => intro hk; simp at hk
  | cons kv tl ih =>
      intro hk
      cases kv with
      | mk k0 w =>
          by_cases h0 : k0 = k
          · simp only [List.map_cons, if_pos (show (k0, w).1 = k from h0)]
            simp [assocFind]
          · simp only [List.map_cons, if_neg (show ¬((k0, w).1 = k) from h0)]
            have hk' : k ∈ tl.map Prod.fst := by
              simp only [List.map_cons, List.mem_cons] at hk
              rcases hk with h1 | h1
              · exact absurd h1.symm h0
              · exact h1
            simp only [assocFind, if_neg (fun hc : k = k0 => h0 hc.symm)]
            exact ih hk'

theorem assocFind_overwrite_ne {k k' : String} {v : Schema} (hne : k' ≠ k) :
    ∀ {acc : List (String × Schema)},
      assocFind k' (acc.map (fun kv => if kv.1 = k then (k, v) else kv))
        = assocFind k' acc := by
  intro acc
  induction acc with
  | nil => rfl
  | cons kv tl ih =>
      cases kv with
      | mk k0 w =>
          by_cases h0 : k0 = k
          · simp only [List.map_cons, if_pos (show (k0, w).1 = k from h0)]
            have h1 : ¬(k' = k0) := fun hc => hne (hc.trans h0)
            simp only [assocFind, if_neg hne, if_neg h1]
            exact ih
          · simp only [List.map_cons, if_neg (show ¬((k0, w).1 = k) from h0)]
            simp only [assocFind]
            by_cases hk0 : k' = k0
            · simp [hk0]
            · simp only [if_neg hk0]
              exact ih

/-- Lookup through one `Object.assign` key step. -/
theorem assocFind_assignOne {acc : List (String × Schema)} {k k' : String} {v : Schema} :
    assocFind k' (assignOne acc k v)
      = if k' = k then some v else assocFind k' acc := by
  unfold assignOne
  by_cases hk : k ∈ acc.map Prod.fst
  · rw [if_pos hk]
    by_cases he : k' = k
    · subst he
      rw [if_pos rfl]
      exact assocFind_overwrite hk
    · rw [if_neg he]
      exact assocFind_overwrite_ne he
  · rw [if_neg hk]
    rw [assocFind_append]
    by_cases he : k' = k
    · subst he
      rw [if_pos rfl, assocFind_eq_none hk]
      simp [assocFind]
    · rw [if_neg he]
      have h2 : assocFind k' [(k, v)] = none := by simp [assocFind, he]
      rw [h2]
      cases hfa : assocFind k' acc <;> rfl

/-- Lookup through a whole `Object.assign`: the source wins where it binds
the key. -/
theorem assocFind_assignAll :
    ∀ {src : List (String × Schema)}, (src.map Prod.fst).Nodup →
      ∀ {acc : List (String × Schema)} {k : String},
        assocFind k (assignAll acc src)
          = (assocFind k src).orElse (fun _ => assocFind k acc) := by
  intro src
  induction src with
  | nil => intro _ acc k; rfl
  | cons kv tl ih =>
      intro hnd acc k
      cases kv with
      | mk k0 v =>
          rw [List.map_cons] at hnd
          have hnd2 := List.nodup_cons.mp hnd
          show assocFind k (assignAll (assignOne acc k0 v) tl) = _
          rw [ih hnd2.2]
          rw [assocFind_assignOne]
          by_cases he : k = k0
          · subst he
            rw [if_pos rfl]
            rw [assocFind_eq_none hnd2.1]
            simp [assocFind]
          · rw [if_neg he]
            simp only [assocFind, if_neg he]

/-- Lookup through the whole merge fold is the last-write-wins value. -/
theorem assocFind_mergeProps :
    ∀ {frags : List Schema},
      (∀ s ∈ frags, ((s.properties.getD []).map Prod.fst).Nodup) →
      ∀ {acc : List (String × Schema)} {k : String},
        assocFind k (frags.foldl (fun acc s => assignAll acc (s.properties.getD [])) acc)
          = (lwwValue k frags).orElse (fun _ => assocFind k acc) := by
  intro frags
  induction frags with
  | nil => intro _ acc k; rfl
  | cons s tl ih =>
      intro hnd acc k
      show assocFind k (tl.foldl _ (assignAll acc (s.properties.getD []))) = _
      rw [ih (fun s0 hs0 => hnd s0 (by simp [hs0]))]
      rw [assocFind_assignAll (hnd s (by simp))]
      cases hl : lwwValue k tl <;> simp [lwwValue, hl, lookupProp]

theorem not_mem_seen_of_mem_dedup [DecidableEq α] {a : α} :
    ∀ {l seen : List α}, a ∈ dedupKeepFirst seen l → a ∉ seen := by
  intro l
  induction l with
  | nil => intro seen h; simp [dedupKeepFirst] at h
  | cons x xs ih =>
      intro seen h
      by_cases hx : x ∈ seen
      · simp only [dedupKeepFirst, if_pos hx] at h
        exact ih h
      · simp only [dedupKeepFirst, if_neg hx] at h
        rcases List.mem_cons.mp h with rfl | h
        · exact hx
        · intro hc
          exact ih h (by simp [hc])

theorem dedupKeepFirst_nodup [DecidableEq α] :
    ∀ (l seen : List α), (dedupKeepFirst seen l).Nodup := by
  intro l
  induction l with
  | nil => intro seen; exact List.nodup_nil
  | cons x xs ih =>
      intro seen
      by_cases hx : x ∈ seen
      · simp only [dedupKeepFirst, if_pos hx]
        exact ih seen
      · simp only [dedupKeepFirst, if_neg hx]
        rw [List.nodup_cons]
        refine ⟨?_, ih (x :: seen)⟩
        intro hc
        exact (not_mem_seen_of_mem_dedup hc) (by simp)

theorem mem_of_mem_dedupKeepFirst [DecidableEq α] {a : α} :
    ∀ {l seen : List α}, a ∈ dedupKeepFirst seen l → a ∈ l := by
  intro l
  induction l with
  | nil => intro seen h; simp [dedupKeepFirst] at h
  | cons x xs ih =>
      intro seen h
      by_cases hx : x ∈ seen
      · simp only [dedupKeepFirst, if_pos hx] at h
        exact List.mem_cons_of_mem x (ih h)
      · simp only [dedupKeepFirst, if_neg hx] at h
        rcases List.mem_cons.mp h with rfl | h
        · simp
        · exact List.mem_cons_of_mem x (ih h)

/-- Two association lists with the same duplicate-free key sequence and the
same lookups are equal. -/
theorem assoc_ext :
    ∀ {l1 l2 : List (String × Schema)},
      l1.map Prod.fst = l2.map Prod.fst → (l1.map Prod.fst).Nodup →
      (∀ k, assocFind k l1 = assocFind k l2) → l1 = l2 := by
  intro l1
  induction l1 with
  | nil =>
      intro l2 hkeys _ _
      cases l2 with
      | nil => rfl
      | cons kv tl => simp at hkeys
  | cons kv tl ih =>
      intro l2 hkeys hnd hfind
      cases l2 with
      | nil => simp at hkeys
      | cons kv2 tl2 =>
          cases kv with
          | mk k v =>
              cases kv2 with
              | mk k2 v2 =>
                  simp only [List.map_cons, List.cons.injEq] at hkeys
                  obtain ⟨hk, htl⟩ := hkeys
                  subst hk
                  rw [List.map_cons] at hnd
                  have hnd2 := List.nodup_cons.mp hnd
                  have hv : v = v2 := by
                    have := hfind k
                    simp [assocFind] at this
                    exact this
                  subst hv
                  have htlEq : tl = tl2 := by
                    apply ih htl hnd2.2
                    intro k'
                    by_cases hk' : k' = k
                    · subst hk'
                      rw [assocFind_eq_none hnd2.1,
                        assocFind_eq_none (htl ▸ hnd2.1)]
                    · have := hfind k'
                      simp only [assocFind, if_neg hk'] at this
                      exact this
                  rw [htlEq]

/-- Lookup in the spec-side key-value table. -/
theorem assocFind_mapped {val : String → Schema} :
    ∀ {keys : List String} {k : String},
      assocFind k (keys.map (fun k => (k, val k)))
        = if k ∈ keys then some (val k) else none := by
  intro keys
  induction keys with
  | nil => intro k; simp [assocFind]
  | cons k0 tl ih =>
      intro k
      simp only [List.map_cons, assocFind]
      by_cases hk : k = k0
      · subst hk
        simp
      · rw [if_neg hk, ih]
        by_cases hm : k ∈ tl
        · simp [hm, hk, List.mem_cons]
        · simp [hm, hk, List.mem_cons]

theorem lwwValue_none_of_not_mem {k : String} :
    ∀ {frags : List Schema},
      k ∉ frags.flatMap (fun s => (s.properties.getD []).map Prod.fst) →
      lwwValue k frags = none := by
  intro frags
  induction frags with
  | nil => intro _; rfl
  | cons s tl ih =>
      intro hk
      rw [show (s :: tl).flatMap (fun s => (s.properties.getD []).map Prod.fst)
          = (s.properties.getD []).map Prod.fst
            ++ tl.flatMap (fun s => (s.properties.getD []).map Prod.fst) from rfl] at hk
      simp only [List.mem_append] at hk
      push_neg at hk
      have h1 := ih hk.2
      have h2 : lookupProp k s = none := assocFind_eq_none hk.1
      simp [lwwValue, h1, h2]

theorem lwwValue_isSome_of_mem {k : String} :
    ∀ {frags : List Schema},
      k ∈ frags.flatMap (fun s => (s.properties.getD []).map Prod.fst) →
      (lwwValue k frags).isSome = true := by
  intro frags
  induction frags with
  | nil => intro h; simp at h
  | cons s tl ih =>
      intro hk
      rw [show (s :: tl).flatMap (fun s => (s.properties.getD []).map Prod.fst)
          = (s.properties.getD []).map Prod.fst
            ++ tl.flatMap (fun s => (s.properties.getD []).map Prod.fst) from rfl] at hk
      rcases List.mem_append.mp hk with h1 | h1
      · cases hl : lwwValue k tl with
        | none =>
            have := assocFind_isSome h1
            simp [lwwValue, hl, lookupProp, this]
        | some w => simp [lwwValue, hl]
      · have := ih h1
        cases hl : lwwValue k tl with
        | none => rw [hl] at this; simp at this
        | some w => simp [lwwValue, hl]

theorem map_fst_mapped {val : String → Schema} :
    ∀ keys : List String, (keys.map (fun k => (k, val k))).map Prod.fst = keys := by
  intro keys
  induction keys with
  | nil => rfl
  | cons a tl ih => simp only [List.map_cons, ih]

/-- The folded `Object.assign` merge is exactly the spec's merged property
map: first-seen key order, last-write-wins values. -/
theorem mergeProps_eq_spec {frags : List Schema}
    (hnd : ∀ s ∈ frags, ((s.properties.getD []).map Prod.fst).Nodup) :
    frags.foldl (fun acc s => assignAll acc (s.properties.getD [])) []
      = specMergedProps frags := by
  apply assoc_ext
  · rw [mergeProps_keys_eq_spec]
    unfold specMergedProps
    rw [map_fst_mapped]
  · rw [mergeProps_keys_eq_spec]
    unfold specMergedKeys
    exact dedupKeepFirst_nodup _ _
  · intro k
    rw [assocFind_mergeProps hnd]
    unfold specMergedProps
    rw [assocFind_mapped]
    by_cases hm : k ∈ specMergedKeys frags
    · have hflat : k ∈ frags.flatMap (fun s => (s.properties.getD []).map Prod.fst) :=
        mem_of_mem_dedupKeepFirst hm
      obtain ⟨w, hw⟩ := Option.isSome_iff_exists.mp (lwwValue_isSome_of_mem hflat)
      rw [hw, if_pos hm]
      rfl
    · have hflat : k ∉ frags.flatMap (fun s => (s.properties.getD []).map Prod.fst) := by
        intro hc
        rcases mem_dedupKeepFirst [] hc with h1 | h1
        · simp at h1
        · exact hm h1
      rw [lwwValue_none_of_not_mem hflat, if_neg hm]
      rfl

/-! ## Shape of the object branch -/

/-- The cycle guard: an object reference already on the recursion stack
returns the degraded `{type: "object"}` at once. -/
theorem inferSchema_visited_guard {h : Heap} {fuel : Nat} {p : Nat} {visited : List Nat}
    (hc : visited.contains p = true) :
    inferSchema h (fuel + 1) (.objRef p) visited = some degradedObjSchema := by
  simp only [inferSchema]
  rw [hc]
  simp

/-- A successful object inference not hitting the guard returns a full
object fragment built from the object's entries. -/
theorem inferSchema_obj_shape {h : Heap} {fuel : Nat} {p : Nat} {visited : List Nat}
    {w : Schema} (hw : inferSchema h (fuel + 1) (.objRef p) visited = some w)
    (hnv : visited.contains p = false) :
    ∃ pentries pps, h.objs[p]? = some pentries ∧
      optionMapList (fun kv => (inferSchema h fuel kv.2 (p :: visited)).map
        (fun sc => (kv.1, sc))) pentries = some pps ∧
      w = objectSchema pps (pentries.map Prod.fst) := by
  simp only [inferSchema] at hw
  rw [hnv] at hw
  simp only [Bool.false_eq_true, if_false] at hw
  split at hw
  · exact absurd hw (by simp)
  · split at hw
    · exact absurd hw (by simp)
    · rename_i pentries hpe hx pps hpm
      exact ⟨pentries, pps, hpe, hpm, (Option.some.inj hw).symm⟩

theorem freeObjs_pos {n r : Nat} (hr : r < n) : 1 ≤ freeObjs n [] := by
  have h1 : freeObjs n (r :: []) + 1 = freeObjs n [] := freeObjs_cons hr (by simp)
  omega

/-! ## The claims -/

/-- C1: the claim says that for a non-empty homogeneous sequence of
fragments whose shared `type` is not `"object"`, `unifySchemas` returns the
first fragment as-is, e.g. unifying `[{type:"integer"},{type:"integer"}]`
yields `{type:"integer"}` and `inferSchema([1,2])` yields
`{type:"array", items:{type:"integer"}}`.  The code instead executes
`delete baseSchema.type` on the copied first fragment before returning it,
so both results lose the `type` key: this theorem evaluates the code at the
failing input, producing `{}` and `{type:"array", items:{}}`. -/
theorem claim_C1 :
    unifySchemas [intSchema, intSchema] = emptySchema ∧
    inferSchema h12 2 (.arrRef 0) [] = some (arraySchema emptySchema) :=
  ⟨rfl, rfl⟩

/-- C2 (amended): any object whose reference is already in the Visited Set
is returned as the degraded `{type:"object"}` without descending, and
inference terminates on every in-memory graph whose direct array-to-array
reference graph admits a ranking (no array-only cycles).  Arrays are never
added to or checked against the Visited Set, so the original claim's
guarantee for self-referential arrays does not hold (see the
counterexample). -/
theorem claim_C2 :
    (∀ (h : Heap) (fuel : Nat) (r : Nat) (visited : List Nat),
      visited.contains r = true →
      inferSchema h (fuel + 1) (.objRef r) visited = some degradedObjSchema) ∧
    (∀ (h : Heap) (rank : Nat → Nat), heapValid h → rankOk h rank →
      ∀ v : JVal, refOk h v = true → InferTerminates h v) :=
  ⟨fun _ _ _ _ hc => inferSchema_visited_guard hc,
   fun h rank hval hrank v hv => inferTerminates_of_rank h rank hval hrank v hv⟩

theorem claim_C2_witness :
    inferSchema hSelfSib 1 (.objRef 0) [0] = some degradedObjSchema ∧
    InferTerminates hSelfSib (.objRef 0) := by
  constructor
  · exact claim_C2.1 hSelfSib 0 0 [0] (by decide)
  · exact claim_C2.2 hSelfSib (fun _ => 0)
      (by unfold heapValid; exact ⟨by decide, by decide⟩)
      (by intro r l r' h1 _; simp [hSelfSib] at h1) (.objRef 0) (by decide)

/-- C2 counterexample: the claim as stated promises termination on every
in-memory value graph, including a self-referential array; on the heap
`const a = []; a.push(a)` the inference never returns for any fuel. -/
theorem claim_C2_counterexample : ¬ InferTerminates hArrCycle (.arrRef 0) := by
  rintro ⟨fuel, hf⟩
  rw [arrCycle_diverges fuel []] at hf
  simp at hf

/-- C3: every object fragment with `properties` and `required` produced by
`inferSchema` (on a heap whose objects have duplicate-free keys, as
JavaScript guarantees) or by `unifySchemas` (on fragments satisfying the
invariant, with `properties`/`required` present together) lists exactly its
property keys as required, duplicate-free, in first-seen order —
`claimGood` checks this recursively through every nested fragment. -/
theorem claim_C3 :
    (∀ (h : Heap), heapKeysNodup h →
      ∀ (fuel : Nat) (v : JVal) (visited : List Nat) (s : Schema),
        inferSchema h fuel v visited = some s → claimGood s = true) ∧
    (∀ frags : List Schema,
      (∀ s ∈ frags, claimGood s = true ∧ propsIffReq s = true) →
      claimGood (unifySchemas frags) = true) :=
  ⟨fun h hnd fuel v visited s hs => (inferSchema_claimGood h hnd fuel v visited s hs).1,
   fun _ hall => unifySchemas_claimGood hall⟩

theorem claim_C3_witness :
    claimGood (arraySchema (objectSchema
      [("a", intSchema), ("b", stringSchema none)] ["a", "b"])) = true ∧
    claimGood (unifySchemas [objectSchema [("a", intSchema)] ["a"],
      degradedObjSchema]) = true := by
  constructor
  · exact claim_C3.1 h6ex (by unfold heapKeysNodup; decide) 4 (.arrRef 0) [] _ rfl
  · apply claim_C3.2
    intro s hs
    rcases List.mem_cons.mp hs with rfl | hs
    · exact ⟨rfl, rfl⟩
    · rcases List.mem_cons.mp hs with rfl | hs
      · exact ⟨rfl, rfl⟩
      · simp at hs

/-- C5: the string branch returns `{type:"string"}` with at most one format,
detected in the fixed precedence of the source — URL parse first, else the
`@`/`.` email test, else the date shape with a valid calendar date, else the
date-time prefix shape with a valid date-time — and the five spec examples
evaluate as stated.  `urlParseOk`, `dateParseOk` and `dateTimeParseOk` model
the host's `new URL` and `Date.parse`. -/
theorem claim_C5 :
    (∀ (h : Heap) (fuel : Nat) (visited : List Nat) (str : String),
      inferSchema h (fuel + 1) (.str str) visited
        = some (stringSchema (detectFormat str))) ∧
    (∀ s : String, urlParseOk s = true → detectFormat s = some "uri") ∧
    (∀ s : String, urlParseOk s = false →
      strContains s '@' = true → strContains s '.' = true →
      detectFormat s = some "email") ∧
    (∀ s : String, urlParseOk s = false →
      (strContains s '@' && strContains s '.') = false →
      matchDateShape s = true → dateParseOk s = true →
      detectFormat s = some "date") ∧
    (∀ s : String, urlParseOk s = false →
      (strContains s '@' && strContains s '.') = false →
      (matchDateShape s && dateParseOk s) = false →
      matchDateTimeShape s = true → dateTimeParseOk s = true →
      detectFormat s = some "date-time") ∧
    (∀ s : String, urlParseOk s = false →
      (strContains s '@' && strContains s '.') = false →
      (matchDateShape s && dateParseOk s) = false →
      (matchDateTimeShape s && dateTimeParseOk s) = false →
      detectFormat s = none) ∧
    detectFormat "2024-01-15" = some "date" ∧
    detectFormat "2024-01-15T10:00:00Z" = some "date-time" ∧
    detectFormat "user@example.com" = some "email" ∧
    detectFormat "https://example.com" = some "uri" ∧
    detectFormat "hello" = none := by
  refine ⟨fun h fuel visited str => rfl, ?_, ?_, ?_, ?_, ?_, rfl, rfl, rfl, rfl, rfl⟩
  · intro s hu
    simp [detectFormat, hu]
  · intro s hu h1 h2
    simp [detectFormat, hu, h1, h2]
  · intro s hu h1 h2 h3
    simp [detectFormat, hu, h1, h2, h3]
  · intro s hu h1 h2 h3 h4
    simp [detectFormat, hu, h1, h2, h3, h4]
  · intro s hu h1 h2 h3
    simp [detectFormat, hu, h1, h2, h3]

theorem claim_C5_witness :
    detectFormat "user@example.com" = some "email" :=
  claim_C5.2.2.1 "user@example.com" rfl rfl rfl

/-- C7: when the unification input carries at least two distinct `type`
tags, `unifySchemas` returns `{anyOf: fragments}` with all fragments
unmodified in their original order (no deduplication); hence
`inferSchema([1,"x"])` is `{type:"array",
items:{anyOf:[{type:"integer"},{type:"string"}]}}`. -/
theorem claim_C7 :
    (∀ (frags : List Schema) (s1 s2 : Schema), s1 ∈ frags → s2 ∈ frags →
      s1.type ≠ s2.type → unifySchemas frags = anyOfSchema frags) ∧
    inferSchema h7ex 3 (.arrRef 0) []
      = some (arraySchema (anyOfSchema [intSchema, stringSchema none])) :=
  ⟨fun _ _ _ h1 h2 hne => unifySchemas_mixed h1 h2 hne, rfl⟩

theorem claim_C7_witness :
    unifySchemas [intSchema, stringSchema none]
      = anyOfSchema [intSchema, stringSchema none] :=
  claim_C7.1 _ intSchema (stringSchema none) (by simp) (by simp) (by decide)

/-- C8: an empty array is special-cased to `{type:"array", items:{}}` before
the Schema Unifier is ever invoked, and `unifySchemas` on the empty sequence
returns the unconstrained `{}`. -/
theorem claim_C8 :
    (∀ (h : Heap) (fuel : Nat) (visited : List Nat) (r : Nat),
      h.arrs[r]? = some [] →
      inferSchema h (fuel + 1) (.arrRef r) visited = some (arraySchema emptySchema)) ∧
    unifySchemas [] = emptySchema := by
  refine ⟨?_, rfl⟩
  intro h fuel visited r hr
  simp only [inferSchema]
  rw [hr]
  exact rfl

theorem claim_C8_witness :
    inferSchema hEmptyArr 1 (.arrRef 0) [] = some (arraySchema emptySchema) :=
  claim_C8.1 hEmptyArr 0 [] 0 rfl

/-- C9: the threaded interpreter `inferSchemaVis`, which mutates the Visited
Set exactly as the source does (`add` on entering an object, `delete` on
exit), always returns the set it received and computes the same fragment as
the pure `inferSchema`.  The input graph itself is untouched: the source
contains no assignment into `value`, so the embedding reads the heap only. -/
theorem claim_C9 :
    ∀ (h : Heap) (fuel : Nat) (v : JVal) (visited : List Nat) (s : Schema)
      (visited' : List Nat),
      inferSchemaVis h fuel v visited = some (s, visited') →
      visited' = visited ∧ inferSchema h fuel v visited = some s := by
  intro h fuel v visited s visited' hv
  rw [inferSchemaVis_eq_inferSchema] at hv
  cases hi : inferSchema h fuel v visited with
  | none => rw [hi] at hv; simp at hv
  | some s0 =>
      rw [hi] at hv
      simp only [Option.map_some'] at hv
      have hpair := Option.some.inj hv
      have hs0 : s0 = s := congrArg Prod.fst hpair
      have hvv : visited = visited' := congrArg Prod.snd hpair
      exact ⟨hvv.symm, congrArg some hs0⟩

theorem claim_C9_witness :
    ([] : List Nat) = [] ∧ inferSchema h12 2 (.arrRef 0) [] = some (arraySchema emptySchema) :=
  claim_C9 h12 2 (.arrRef 0) [] (arraySchema emptySchema) [] rfl

/-- C10 (amended): the top-level fragment returned by `inferSchema` always
has a `type` key and is never a bare `{anyOf: ...}`; every `anyOf` fragment
in the result sits as the value of some `items` field.  The original claim's
stronger placement — the enclosing fragment is always an array fragment — is
refuted by the counterexample, because unification deletes the `type` key of
the enclosing fragment. -/
theorem claim_C10 :
    ∀ (h : Heap) (fuel : Nat) (v : JVal) (visited : List Nat) (s : Schema),
      inferSchema h fuel v visited = some s → placedOk false s = true :=
  fun h fuel v visited s hs => inferSchema_placedOk h fuel v visited s hs

theorem claim_C10_witness :
    placedOk false (arraySchema (anyOfSchema [intSchema, stringSchema none])) = true :=
  claim_C10 h7ex 3 (.arrRef 0) [] _ rfl

/-- C10 counterexample: on `[[1,"x"],[true]]` the unified `items` fragment is
`{items:{anyOf:[...]}}` — its `type` was deleted by unification — so the
`anyOf` sits inside the `items` of a fragment that is not an array fragment,
refuting the claim's placement as stated (`placedOk true` is that strict
reading). -/
theorem claim_C10_counterexample :
    inferSchema h10ex 4 (.arrRef 0) []
      = some (arraySchema (Schema.mk none none
          (some (anyOfSchema [intSchema, stringSchema none])) none none none)) ∧
    placedOk true (arraySchema (Schema.mk none none
        (some (anyOfSchema [intSchema, stringSchema none])) none none none)) = false :=
  ⟨rfl, rfl⟩

/-- C6: on a non-empty all-`"object"` input (with duplicate-free keys inside
each fragment, as JavaScript objects guarantee), `unifySchemas` returns one
object fragment whose `properties` is the last-write-wins union of the
inputs' properties in first-seen key order and whose `required` is the
deduplicated union of the inputs' required lists in first-seen order — and
`inferSchema([{"a":1},{"a":2,"b":"x"}])` yields exactly the fragment of the
spec's example. -/
theorem claim_C6 :
    (∀ frags : List Schema, frags ≠ [] →
      (∀ s ∈ frags, s.type = some "object") →
      (∀ s ∈ frags, ((s.properties.getD []).map Prod.fst).Nodup) →
      unifySchemas frags = Schema.mk (some "object") none none
        (some (specMergedProps frags)) (some (specRequired frags)) none) ∧
    inferSchema h6ex 4 (.arrRef 0) []
      = some (arraySchema (objectSchema
          [("a", intSchema), ("b", stringSchema none)] ["a", "b"])) := by
  refine ⟨?_, rfl⟩
  intro frags hne hall hnd
  rw [unifySchemas_all_object hne hall]
  unfold mergeObjectSchemas
  rw [mergeProps_eq_spec hnd, mergeRequired_eq_spec]

theorem claim_C6_witness :
    unifySchemas [objectSchema [("a", intSchema)] ["a"],
        objectSchema [("a", numberSchema), ("b", stringSchema none)] ["a", "b"]]
      = Schema.mk (some "object") none none
          (some (specMergedProps [objectSchema [("a", intSchema)] ["a"],
            objectSchema [("a", numberSchema), ("b", stringSchema none)] ["a", "b"]]))
          (some (specRequired [objectSchema [("a", intSchema)] ["a"],
            objectSchema [("a", numberSchema), ("b", stringSchema none)] ["a", "b"]]))
          none :=
  claim_C6.1 _ (by simp)
    (by intro s hs
        rcases List.mem_cons.mp hs with rfl | hs
        · rfl
        · rcases List.mem_cons.mp hs with rfl | hs
          · rfl
          · simp at hs)
    (by intro s hs
        rcases List.mem_cons.mp hs with rfl | hs
        · decide
        · rcases List.mem_cons.mp hs with rfl | hs
          · decide
          · simp at hs)

/-- C4 (amended): provided the heap's direct array-to-array reference graph
admits a ranking (no array-only cycles — without this the original claim
fails, see the counterexample), inference of an object returns, for some
fuel, the full fragment `{type:"object", properties, required}` listing all
entry keys; every self-referential property is degraded to `{type:"object"}`
by the cycle guard; and because the Visited Set entry is removed on exit,
two sibling properties sharing the identity of another object both receive
the same full (non-degraded) fragment for it. -/
theorem claim_C4 (h : Heap) (rank : Nat → Nat)
    (hval : heapValid h) (hrank : rankOk h rank) (r : Nat)
    (entries : List (String × JVal)) (he : h.objs[r]? = some entries) :
    ∃ fuel props,
      inferSchema h fuel (.objRef r) []
        = some (objectSchema props (entries.map Prod.fst)) ∧
      (∀ k, (k, JVal.objRef r) ∈ entries → (k, degradedObjSchema) ∈ props) ∧
      (∀ k1 k2 p, (k1, JVal.objRef p) ∈ entries → (k2, JVal.objRef p) ∈ entries →
        p ≠ r → ∃ pentries pps,
          h.objs[p]? = some pentries ∧
          (k1, objectSchema pps (pentries.map Prod.fst)) ∈ props ∧
          (k2, objectSchema pps (pentries.map Prod.fst)) ∈ props) := by
  have hr : r < h.objs.length := (List.getElem?_eq_some.mp he).1
  have hfree1 : 1 ≤ freeObjs h.objs.length [] := freeObjs_pos hr
  have hM2 : 2 ≤ maxRank h rank + 2 := by omega
  have hN : 2 ≤ freeObjs h.objs.length [] * (maxRank h rank + 2) := by
    calc 2 = 1 * 2 := by omega
    _ ≤ freeObjs h.objs.length [] * (maxRank h rank + 2) :=
        Nat.mul_le_mul hfree1 hM2
  obtain ⟨N, hN'⟩ : ∃ N, freeObjs h.objs.length [] * (maxRank h rank + 2)
      = N + 1 + 1 := ⟨freeObjs h.objs.length [] * (maxRank h rank + 2) - 2, by omega⟩
  have hWt : inferWt h rank (.objRef r) []
      = freeObjs h.objs.length [] * (maxRank h rank + 2) + 1 := by
    simp [inferWt, localRank]
  have hIS := inferSchema_isSome_of_wt h rank hval hrank (N + 1 + 1 + 1)
    (.objRef r) [] (by simp [refOk, hr]) (by rw [hWt, hN'])
  cases hsome : inferSchema h (N + 1 + 1 + 1) (.objRef r) [] with
  | none => rw [hsome] at hIS; simp at hIS
  | some w =>
      obtain ⟨entries', props, he', hm, hw⟩ := inferSchema_obj_shape hsome rfl
      rw [he] at he'
      obtain rfl : entries = entries' := Option.some.inj he'
      refine ⟨N + 1 + 1 + 1, props, by rw [hsome, hw], ?_, ?_⟩
      · intro k hk
        obtain ⟨b, hb, hfb⟩ := optionMapList_forall_mem hm (k, JVal.objRef r) hk
        rw [show ((k, JVal.objRef r).2 : JVal) = JVal.objRef r from rfl] at hfb
        rw [inferSchema_visited_guard (by simp)] at hfb
        simp only [Option.map_some'] at hfb
        rw [← Option.some.inj hfb] at hb
        exact hb
      · intro k1 k2 p hp1 hp2 hpr
        obtain ⟨b1, hb1, hfb1⟩ := optionMapList_forall_mem hm (k1, JVal.objRef p) hp1
        obtain ⟨b2, hb2, hfb2⟩ := optionMapList_forall_mem hm (k2, JVal.objRef p) hp2
        rw [show ((k1, JVal.objRef p).2 : JVal) = JVal.objRef p from rfl] at hfb1
        rw [show ((k2, JVal.objRef p).2 : JVal) = JVal.objRef p from rfl] at hfb2
        cases hw2 : inferSchema h (N + 1 + 1) (.objRef p) (r :: []) with
        | none => rw [hw2] at hfb1; simp at hfb1
        | some wp =>
            rw [hw2] at hfb1 hfb2
            simp only [Option.map_some'] at hfb1 hfb2
            have hcp : (r :: ([] : List Nat)).contains p = false := by
              simp only [List.contains_cons]
              simp
              omega
            obtain ⟨pentries, pps, hpe, _, hwshape⟩ := inferSchema_obj_shape hw2 hcp
            refine ⟨pentries, pps, hpe, ?_, ?_⟩
            · rw [← Option.some.inj hfb1] at hb1
              rw [← hwshape]
              exact hb1
            · rw [← Option.some.inj hfb2] at hb2
              rw [← hwshape]
              exact hb2

theorem claim_C4_witness :
    ∃ fuel props,
      inferSchema hSelfSib fuel (.objRef 0) []
        = some (objectSchema props
            ([("self", JVal.objRef 0), ("a", JVal.objRef 1),
              ("b", JVal.objRef 1)].map Prod.fst)) ∧
      (∀ k, (k, JVal.objRef 0) ∈
          [("self", JVal.objRef 0), ("a", JVal.objRef 1), ("b", JVal.objRef 1)] →
        (k, degradedObjSchema) ∈ props) ∧
      (∀ k1 k2 p, (k1, JVal.objRef p) ∈
          [("self", JVal.objRef 0), ("a", JVal.objRef 1), ("b", JVal.objRef 1)] →
        (k2, JVal.objRef p) ∈
          [("self", JVal.objRef 0), ("a", JVal.objRef 1), ("b", JVal.objRef 1)] →
        p ≠ 0 → ∃ pentries pps,
          hSelfSib.objs[p]? = some pentries ∧
          (k1, objectSchema pps (pentries.map Prod.fst)) ∈ props ∧
          (k2, objectSchema pps (pentries.map Prod.fst)) ∈ props) :=
  claim_C4 hSelfSib (fun _ => 0)
    (by unfold heapValid; exact ⟨by decide, by decide⟩)
    (by intro r l r' h1 _; simp [hSelfSib] at h1)
    0 _ rfl

/-- C4 counterexample: the claim as stated promises termination and a full
outer fragment for every in-memory object with a self-referential property;
on an object whose other property is a self-referential array, inference
never returns for any fuel. -/
theorem claim_C4_counterexample : ¬ InferTerminates hObjArrCycle (.objRef 0) := by
  rintro ⟨fuel, hf⟩
  rw [objArrCycle_obj_diverges fuel] at hf
  simp at hf

end DynaLoader
